import Mathlib

/-!
Verification of the wilco component-serving core: the component registry,
the bundle cache, the bridge handlers, and the bundler's source-map
rewriting pipeline, shallowly embedded from the Python sources
(`wilco/registry.py`, `wilco/bridges/base.py`, `wilco/bundler.py`,
`wilco/bridges/fastapi.py`).

Conventions of the embedding:
- Python `dict` is an association list with first-occurrence lookup and
  update-in-place insert (matching CPython's insertion-order semantics).
- Python exceptions are `Except PyErr`; the `PyErr` constructors mirror the
  exception classes the code raises or catches (`ValueError`,
  `RuntimeError`, `TypeError`, `BundlerNotFoundError`).
- Bytes are `Nat` values (< 256 where it matters); file modification times
  are modelled as `Int` (the code only ever compares them for exact
  equality; IEEE NaN, which `os.stat` never produces, is outside the
  model).
- External effects (the filesystem scan, `stat`, the esbuild subprocess,
  `schema.json` loading) are oracle parameters, exactly the way the
  repository's own tests mock them.
-/

namespace Wilco

/-! ## Python dict as an association list -/

/-- Lookup of the first binding of a key, as CPython reads a dict. -/
def dictLookup {β : Type} : List (String × β) → String → Option β
  | [], _ => none
  | (k, v) :: t, n => if k = n then some v else dictLookup t n

/-- Insert with update-in-place: an existing key keeps its position and gets
the new value, a fresh key is appended — CPython dict assignment. -/
def dictInsert {β : Type} : List (String × β) → String → β → List (String × β)
  | [], n, v => [(n, v)]
  | (k, w) :: t, n, v => if k = n then (n, v) :: t else (k, w) :: dictInsert t n v

/-- Removal of the first binding of a key, as `dict.pop(name, None)`:
a no-op when the key is absent. -/
def dictRemove {β : Type} : List (String × β) → String → List (String × β)
  | [], _ => []
  | (k, v) :: t, n => if k = n then t else (k, v) :: dictRemove t n

/-! ## JSON values

The fragment of JSON the `json` module round-trips through source maps:
numbers are integers (a well-formed source map holds no floats; the parser
below rejects fractional and exponent forms, which narrows the modelled
inputs but never misattributes behaviour). -/

inductive Json : Type where
  | null : Json
  | bool : Bool → Json
  | num : Int → Json
  | str : String → Json
  | arr : List Json → Json
  | obj : List (String × Json) → Json

/-! ## json.dumps

Python `json.dumps` with default arguments: `ensure_ascii=True` (everything
outside `0x20..0x7e` becomes a lowercase `\uXXXX` escape, astral characters
become surrogate pairs), separators `", "` and `": "`. -/

/-- Hex digit character (lowercase), for `n < 16`. -/
def hexChar (n : Nat) : Char :=
  if n < 10 then Char.ofNat (48 + n) else Char.ofNat (87 + n)

/-- Four-digit lowercase hex rendering of `n < 0x10000`, as `"\u%04x" % n`. -/
def hex4 (n : Nat) : List Char :=
  [hexChar (n / 4096 % 16), hexChar (n / 256 % 16), hexChar (n / 16 % 16), hexChar (n % 16)]

/-- Decimal digits of a natural number, most significant first — `repr(n)`. -/
def natChars (n : Nat) : List Char :=
  if h : n < 10 then [Char.ofNat (48 + n)]
  else natChars (n / 10) ++ [Char.ofNat (48 + n % 10)]
decreasing_by exact Nat.div_lt_self (by omega) (by omega)

/-- Decimal rendering of an integer — `repr(i)` for Python ints. -/
def intChars (i : Int) : List Char :=
  if i < 0 then '-' :: natChars (-i).toNat else natChars i.toNat

/-- Escape one character the way the default (ASCII-only) `json` encoder
does inside a string literal. -/
def escChar (c : Char) : List Char :=
  if c = Char.ofNat 34 then [Char.ofNat 92, Char.ofNat 34]
  else if c = Char.ofNat 92 then [Char.ofNat 92, Char.ofNat 92]
  else if c = Char.ofNat 10 then [Char.ofNat 92, 'n']
  else if c = Char.ofNat 13 then [Char.ofNat 92, 'r']
  else if c = Char.ofNat 9 then [Char.ofNat 92, 't']
  else if c = Char.ofNat 8 then [Char.ofNat 92, 'b']
  else if c = Char.ofNat 12 then [Char.ofNat 92, 'f']
  else if 32 ≤ c.toNat ∧ c.toNat ≤ 126 then [c]
  else if c.toNat < 65536 then Char.ofNat 92 :: 'u' :: hex4 c.toNat
  else
    Char.ofNat 92 :: 'u' :: hex4 (55296 + (c.toNat - 65536) / 1024) ++
      (Char.ofNat 92 :: 'u' :: hex4 (56320 + (c.toNat - 65536) % 1024))

/-- A JSON string literal: quote, escaped characters, quote. -/
def strChars (s : String) : List Char :=
  Char.ofNat 34 :: (s.data.flatMap escChar) ++ [Char.ofNat 34]

mutual

/-- Rendering of one JSON value, as `json.dumps(v)` with default options. -/
def dumpsVal : Json → List Char
  | .null => ['n', 'u', 'l', 'l']
  | .bool b => if b then ['t', 'r', 'u', 'e'] else ['f', 'a', 'l', 's', 'e']
  | .num i => intChars i
  | .str s => strChars s
  | .arr [] => ['[', ']']
  | .arr (x :: xs) => '[' :: dumpsVal x ++ dumpsItems xs ++ [']']
  | .obj [] => [Char.ofNat 123, Char.ofNat 125]
  | .obj ((k, v) :: kvs) =>
      Char.ofNat 123 :: strChars k ++ ':' :: ' ' :: dumpsVal v ++
        dumpsMembers kvs ++ [Char.ofNat 125]

/-- Rendering of the second and later array items, each behind `", "`. -/
def dumpsItems : List Json → List Char
  | [] => []
  | x :: xs => ',' :: ' ' :: dumpsVal x ++ dumpsItems xs

/-- Rendering of the second and later object members, each behind `", "`. -/
def dumpsMembers : List (String × Json) → List Char
  | [] => []
  | (k, v) :: kvs => ',' :: ' ' :: strChars k ++ ':' :: ' ' :: dumpsVal v ++ dumpsMembers kvs

end

/-! ## json.loads

A recursive-descent parser for the fragment above, following the `json`
module's scanner: the four whitespace characters, the `null`/`true`/`false`
literals, strings with the eight simple escapes and `\uXXXX` (surrogate
pairs recombined; lone surrogates, which Lean characters cannot carry, are
rejected), integers with the no-leading-zero rule, arrays and objects with
last-value-wins duplicate keys. Fractional and exponent number forms are
outside the modelled fragment, so the parser stops before them and the
enclosing delimiter check fails, as CPython's scanner does on a malformed
tail. Every parsing function returns the unconsumed suffix together with a
proof that it shrank, which grounds the well-founded recursion. -/

/-- The double-quote character. -/
def qChar : Char := Char.ofNat 34

/-- The backslash character. -/
def bsChar : Char := Char.ofNat 92

/-- The opening-brace character. -/
def lbChar : Char := Char.ofNat 123

/-- The closing-brace character. -/
def rbChar : Char := Char.ofNat 125

/-- JSON whitespace: space, tab, newline, carriage return. -/
def isWsChar (c : Char) : Bool :=
  c = ' ' || c = Char.ofNat 9 || c = Char.ofNat 10 || c = Char.ofNat 13

/-- Skip leading JSON whitespace. -/
def skipWs (s : List Char) : List Char := s.dropWhile isWsChar

theorem skipWs_length_le (s : List Char) : (skipWs s).length ≤ s.length := by
  induction s with
  | nil => exact Nat.le_refl 0
  | cons c t ih =>
    simp only [skipWs, List.dropWhile_cons] at ih ⊢
    split
    · exact Nat.le_trans ih (by simp)
    · exact Nat.le_refl _

/-- An ASCII decimal digit. -/
def isDigitChar (c : Char) : Bool := 48 ≤ c.toNat && c.toNat ≤ 57

/-- Value of one hexadecimal digit, either case. -/
def hexVal (c : Char) : Option Nat :=
  if 48 ≤ c.toNat ∧ c.toNat ≤ 57 then some (c.toNat - 48)
  else if 97 ≤ c.toNat ∧ c.toNat ≤ 102 then some (c.toNat - 87)
  else if 65 ≤ c.toNat ∧ c.toNat ≤ 70 then some (c.toNat - 55)
  else none

/-- The character produced by a single-character JSON escape, if legal. -/
def simpleEsc (e : Char) : Option Char :=
  if e = qChar ∨ e = bsChar ∨ e = '/' then some e
  else if e = 'b' then some (Char.ofNat 8)
  else if e = 'f' then some (Char.ofNat 12)
  else if e = 'n' then some (Char.ofNat 10)
  else if e = 'r' then some (Char.ofNat 13)
  else if e = 't' then some (Char.ofNat 9)
  else none

/-- Combined value of four hexadecimal digits, `int(h1 h2 h3 h4, 16)`. -/
def hex4Val (h1 h2 h3 h4 : Char) : Option Nat :=
  match hexVal h1, hexVal h2, hexVal h3, hexVal h4 with
  | some a, some b, some c, some d => some (a * 4096 + b * 256 + c * 16 + d)
  | _, _, _, _ => none

/-- Parse a `\uXXXX` escape that must carry a low surrogate — the
continuation the scanner demands right after a high surrogate. -/
def parseLowSur : (s : List Char) → Option (Nat × {r : List Char // r.length ≤ s.length})
  | e2 :: u2 :: g1 :: g2 :: g3 :: g4 :: r4 =>
    if e2 = bsChar ∧ u2 = 'u' then
      match hex4Val g1 g2 g3 g4 with
      | some m =>
        if 56320 ≤ m ∧ m < 57344 then some (m, ⟨r4, by simp; omega⟩) else none
      | none => none
    else none
  | _ => none

/-- Parse the body of a JSON string literal (the opening quote already
consumed), returning the decoded characters and the suffix after the
closing quote. -/
def parseStringBody : (s : List Char) → Option (List Char × {r : List Char // r.length < s.length})
  | [] => none
  | c :: r =>
    if c = qChar then some ([], ⟨r, by simp⟩)
    else if c = bsChar then
      match r with
      | [] => none
      | e :: r2 =>
        if e = 'u' then
          match r2 with
          | h1 :: h2 :: h3 :: h4 :: r3 =>
            match hex4Val h1 h2 h3 h4 with
            | some n =>
              if 55296 ≤ n ∧ n < 56320 then
                match parseLowSur r3 with
                | some (m, ⟨r4, hr4⟩) =>
                  match parseStringBody r4 with
                  | some (cs, ⟨rest, hr⟩) =>
                      some (Char.ofNat (65536 + (n - 55296) * 1024 + (m - 56320)) :: cs,
                        ⟨rest, by simp at hr4 hr ⊢; omega⟩)
                  | none => none
                | none => none
              else if 56320 ≤ n ∧ n < 57344 then none
              else
                match parseStringBody r3 with
                | some (cs, ⟨rest, hr⟩) =>
                    some (Char.ofNat n :: cs, ⟨rest, by simp at hr ⊢; omega⟩)
                | none => none
            | none => none
          | _ => none
        else
          match simpleEsc e with
          | some ec =>
            match parseStringBody r2 with
            | some (cs, ⟨rest, hr⟩) => some (ec :: cs, ⟨rest, by simp at hr ⊢; omega⟩)
            | none => none
          | none => none
    else if c.toNat < 32 then none
    else
      match parseStringBody r with
      | some (cs, ⟨rest, hr⟩) => some (c :: cs, ⟨rest, by simp at hr ⊢; omega⟩)
      | none => none
termination_by s => s.length
decreasing_by all_goals (simp_all <;> omega)

/-- Accumulate further decimal digits onto `acc`, stopping (not failing) at
the first non-digit, as the scanner's number regex does. -/
def parseDigitsAcc (acc : Nat) : (s : List Char) → (Nat × {r : List Char // r.length ≤ s.length})
  | [] => (acc, ⟨[], Nat.le_refl 0⟩)
  | c :: r =>
    if isDigitChar c then
      match parseDigitsAcc (acc * 10 + (c.toNat - 48)) r with
      | (n, ⟨r2, h⟩) => (n, ⟨r2, by simp only [List.length_cons]; omega⟩)
    else (acc, ⟨c :: r, Nat.le_refl _⟩)

/-- Parse a JSON unsigned integer: `0` alone, or a nonzero leading digit
followed by any digits. -/
def parseNat : (s : List Char) → Option (Nat × {r : List Char // r.length < s.length})
  | [] => none
  | c :: r =>
    if c = '0' then some (0, ⟨r, by simp⟩)
    else if 49 ≤ c.toNat ∧ c.toNat ≤ 57 then
      match parseDigitsAcc (c.toNat - 48) r with
      | (n, ⟨r2, h⟩) => some (n, ⟨r2, by simp only [List.length_cons]; omega⟩)
    else none

/-- Skip whitespace and take the next character, with the proof that the
input shrank strictly. -/
def nextTok (s : List Char) : Option (Char × {r : List Char // r.length < s.length}) :=
    match h : skipWs s with
    | [] => none
    | c :: r =>
      some (c, ⟨r, by
        have hl := skipWs_length_le s
        rw [h] at hl
        simp only [List.length_cons] at hl
        omega⟩)

mutual

/-- Parse one JSON value: leading whitespace, then the value, following the
dispatch of the `json` scanner. -/
def parseValue (s : List Char) : Option (Json × {r : List Char // r.length < s.length}) :=
    match nextTok s with
    | none => none
    | some (c, ⟨r, hr⟩) =>
      if c = 'n' then
        if r.take 3 = ['u', 'l', 'l'] then
          some (.null, ⟨r.drop 3, by have := List.length_drop 3 r; omega⟩)
        else none
      else if c = 't' then
        if r.take 3 = ['r', 'u', 'e'] then
          some (.bool true, ⟨r.drop 3, by have := List.length_drop 3 r; omega⟩)
        else none
      else if c = 'f' then
        if r.take 4 = ['a', 'l', 's', 'e'] then
          some (.bool false, ⟨r.drop 4, by have := List.length_drop 4 r; omega⟩)
        else none
      else if c = qChar then
        match parseStringBody r with
        | some (cs, ⟨r2, h2⟩) => some (.str (String.mk cs), ⟨r2, by omega⟩)
        | none => none
      else if c = '[' then
        match nextTok r with
        | none => none
        | some (d, ⟨r2, h2⟩) =>
          if d = ']' then some (.arr [], ⟨r2, by omega⟩)
          else
            match parseValue r with
            | some (j, ⟨r3, h3⟩) =>
              match parseItemsLoop [j] r3 with
              | some (js, ⟨r4, h4⟩) => some (.arr js, ⟨r4, by omega⟩)
              | none => none
            | none => none
      else if c = lbChar then
        match nextTok r with
        | none => none
        | some (d, ⟨r2, h2⟩) =>
          if d = rbChar then some (.obj [], ⟨r2, by omega⟩)
          else
            match parseMemberAt r with
            | some ((k, v), ⟨r3, h3⟩) =>
              match parseMembersLoop (dictInsert [] k v) r3 with
              | some (kvs, ⟨r4, h4⟩) => some (.obj kvs, ⟨r4, by omega⟩)
              | none => none
            | none => none
      else if c = '-' then
        match parseNat r with
        | some (n, ⟨r2, h2⟩) => some (.num (-(n : Int)), ⟨r2, by omega⟩)
        | none => none
      else if isDigitChar c then
        match parseNat (c :: r) with
        | some (n, ⟨r2, h2⟩) =>
            some (.num (n : Int), ⟨r2, by simp only [List.length_cons] at h2; omega⟩)
        | none => none
      else none
termination_by s.length
decreasing_by all_goals omega

/-- Parse the continuation of an array after one parsed item: `, item`
repeated, closed by a bracket. -/
def parseItemsLoop (acc : List Json) (s : List Char) :
    Option (List Json × {r : List Char // r.length ≤ s.length}) :=
    match nextTok s with
    | none => none
    | some (c, ⟨r, hr⟩) =>
      if c = ']' then some (acc, ⟨r, Nat.le_of_lt hr⟩)
      else if c = ',' then
        match parseValue r with
        | some (j, ⟨r2, h2⟩) =>
          match parseItemsLoop (acc ++ [j]) r2 with
          | some (js, ⟨r3, h3⟩) => some (js, ⟨r3, by omega⟩)
          | none => none
        | none => none
      else none
termination_by s.length
decreasing_by all_goals omega

/-- Parse one `"key": value` object member, leading whitespace included. -/
def parseMemberAt (s : List Char) :
    Option ((String × Json) × {r : List Char // r.length < s.length}) :=
    match nextTok s with
    | none => none
    | some (c, ⟨r, hr⟩) =>
      if c = qChar then
        match parseStringBody r with
        | some (ks, ⟨r2, h2⟩) =>
          match nextTok r2 with
          | none => none
          | some (d, ⟨r3, h3⟩) =>
            if d = ':' then
              match parseValue r3 with
              | some (v, ⟨r4, h4⟩) => some ((String.mk ks, v), ⟨r4, by omega⟩)
              | none => none
            else none
        | none => none
      else none
termination_by s.length
decreasing_by all_goals omega

/-- Parse the continuation of an object after one parsed member: `, member`
repeated, closed by a brace. Duplicate keys keep their first position and
take the last value, as building a CPython dict from pairs does. -/
def parseMembersLoop (acc : List (String × Json)) (s : List Char) :
    Option (List (String × Json) × {r : List Char // r.length ≤ s.length}) :=
    match nextTok s with
    | none => none
    | some (c, ⟨r, hr⟩) =>
      if c = rbChar then some (acc, ⟨r, Nat.le_of_lt hr⟩)
      else if c = ',' then
        match parseMemberAt r with
        | some ((k, v), ⟨r2, h2⟩) =>
          match parseMembersLoop (dictInsert acc k v) r2 with
          | some (kvs, ⟨r3, h3⟩) => some (kvs, ⟨r3, by omega⟩)
          | none => none
        | none => none
      else none
termination_by s.length
decreasing_by all_goals omega

end

/-- Parse a complete JSON document, as `json.loads`: one value, possibly
surrounded by whitespace; anything further is an error. -/
def parseJson (s : List Char) : Option Json :=
  match parseValue s with
  | some (j, ⟨r, _⟩) => if skipWs r = [] then some j else none
  | none => none

/-! ## UTF-8

`str.encode("utf-8")` and `bytes.decode("utf-8")` over `Nat` code points
and bytes. The decoder is strict, as Python's default error handler is:
stray or misplaced continuation bytes, overlong forms, surrogates and
out-of-range values all fail. -/

/-- UTF-8 encoding of one character. -/
def utf8EncodeChar (c : Char) : List Nat :=
  if c.toNat < 128 then [c.toNat]
  else if c.toNat < 2048 then [192 + c.toNat / 64, 128 + c.toNat % 64]
  else if c.toNat < 65536 then
    [224 + c.toNat / 4096, 128 + c.toNat / 64 % 64, 128 + c.toNat % 64]
  else
    [240 + c.toNat / 262144, 128 + c.toNat / 4096 % 64, 128 + c.toNat / 64 % 64,
      128 + c.toNat % 64]

/-- UTF-8 encoding of a character sequence, `str.encode("utf-8")`. -/
def utf8Encode (cs : List Char) : List Nat := cs.flatMap utf8EncodeChar

/-- A UTF-8 continuation byte. -/
def isCont (b : Nat) : Bool := 128 ≤ b && b < 192

/-- Validity of a 2-byte UTF-8 sequence: continuation byte and no overlong
form. -/
def utf8Ok2 (b b1 : Nat) : Bool :=
  isCont b1 && decide (128 ≤ (b - 192) * 64 + (b1 - 128))

/-- Scalar value of a 2-byte UTF-8 sequence. -/
def utf8Val2 (b b1 : Nat) : Nat := (b - 192) * 64 + (b1 - 128)

/-- Scalar value of a 3-byte UTF-8 sequence. -/
def utf8Val3 (b b1 b2 : Nat) : Nat := (b - 224) * 4096 + (b1 - 128) * 64 + (b2 - 128)

/-- Validity of a 3-byte UTF-8 sequence: continuation bytes, no overlong
form, no surrogate. -/
def utf8Ok3 (b b1 b2 : Nat) : Bool :=
  isCont b1 && isCont b2 && decide (2048 ≤ utf8Val3 b b1 b2) &&
    !(decide (55296 ≤ utf8Val3 b b1 b2) && decide (utf8Val3 b b1 b2 < 57344))

/-- Scalar value of a 4-byte UTF-8 sequence. -/
def utf8Val4 (b b1 b2 b3 : Nat) : Nat :=
  (b - 240) * 262144 + (b1 - 128) * 4096 + (b2 - 128) * 64 + (b3 - 128)

/-- Validity of a 4-byte UTF-8 sequence: continuation bytes, no overlong
form, within the Unicode range. -/
def utf8Ok4 (b b1 b2 b3 : Nat) : Bool :=
  isCont b1 && isCont b2 && isCont b3 && decide (65536 ≤ utf8Val4 b b1 b2 b3) &&
    decide (utf8Val4 b b1 b2 b3 < 1114112)

/-- Strict UTF-8 decoding, `bytes.decode("utf-8")`: `none` models the
`UnicodeDecodeError` that `b64decode(...).decode("utf-8")` can raise, which
the rewriter's `except (ValueError, ...)` clause catches. Stray or
misplaced continuation bytes, overlong forms, surrogates, out-of-range
values and truncated tails all fail, as Python's strict default handler
does. The four patterns group the input by how many bytes are available;
within each, the lead byte's class decides how many are consumed. -/
def utf8Decode : List Nat → Option (List Char)
  | [] => some []
  | [b] => if b < 128 then (utf8Decode []).map (Char.ofNat b :: ·) else none
  | [b, b1] =>
    if b < 128 then (utf8Decode [b1]).map (Char.ofNat b :: ·)
    else if b < 192 then none
    else if b < 224 then
      if utf8Ok2 b b1 then (utf8Decode []).map (Char.ofNat (utf8Val2 b b1) :: ·) else none
    else none
  | [b, b1, b2] =>
    if b < 128 then (utf8Decode [b1, b2]).map (Char.ofNat b :: ·)
    else if b < 192 then none
    else if b < 224 then
      if utf8Ok2 b b1 then (utf8Decode [b2]).map (Char.ofNat (utf8Val2 b b1) :: ·) else none
    else if b < 240 then
      if utf8Ok3 b b1 b2 then (utf8Decode []).map (Char.ofNat (utf8Val3 b b1 b2) :: ·) else none
    else none
  | b :: b1 :: b2 :: b3 :: rest =>
    if b < 128 then (utf8Decode (b1 :: b2 :: b3 :: rest)).map (Char.ofNat b :: ·)
    else if b < 192 then none
    else if b < 224 then
      if utf8Ok2 b b1 then (utf8Decode (b2 :: b3 :: rest)).map (Char.ofNat (utf8Val2 b b1) :: ·)
      else none
    else if b < 240 then
      if utf8Ok3 b b1 b2 then
        (utf8Decode (b3 :: rest)).map (Char.ofNat (utf8Val3 b b1 b2) :: ·)
      else none
    else if b < 248 then
      if utf8Ok4 b b1 b2 b3 then
        (utf8Decode rest).map (Char.ofNat (utf8Val4 b b1 b2 b3) :: ·)
      else none
    else none

/-! ## Base64

`base64.b64encode` / `base64.b64decode` in their default non-validating
form: characters outside the alphabet are discarded before decoding, the
retained data must fall into complete quads, and padding may appear only at
the end (the last point is slightly stricter than `binascii`'s treatment of
padding in mid-stream, which only exotic inputs can notice). -/

/-- Character of one 6-bit group in the standard base64 alphabet. -/
def b64Char (n : Nat) : Char :=
  if n < 26 then Char.ofNat (65 + n)
  else if n < 52 then Char.ofNat (97 + (n - 26))
  else if n < 62 then Char.ofNat (48 + (n - 52))
  else if n = 62 then '+'
  else '/'

/-- Membership in the standard base64 alphabet (padding excluded). -/
def isB64Char (c : Char) : Bool :=
  (65 ≤ c.toNat && c.toNat ≤ 90) || (97 ≤ c.toNat && c.toNat ≤ 122) ||
    (48 ≤ c.toNat && c.toNat ≤ 57) || c = '+' || c = '/'

/-- Value of one base64 alphabet character. -/
def b64Val (c : Char) : Nat :=
  if 65 ≤ c.toNat ∧ c.toNat ≤ 90 then c.toNat - 65
  else if 97 ≤ c.toNat ∧ c.toNat ≤ 122 then c.toNat - 97 + 26
  else if 48 ≤ c.toNat ∧ c.toNat ≤ 57 then c.toNat - 48 + 52
  else if c = '+' then 62
  else 63

/-- Standard base64 encoding of a byte list, `base64.b64encode`. -/
def b64encode : List Nat → List Char
  | b1 :: b2 :: b3 :: rest =>
      b64Char (b1 / 4) :: b64Char (b1 % 4 * 16 + b2 / 16) ::
        b64Char (b2 % 16 * 4 + b3 / 64) :: b64Char (b3 % 64) :: b64encode rest
  | [b1, b2] =>
      [b64Char (b1 / 4), b64Char (b1 % 4 * 16 + b2 / 16), b64Char (b2 % 16 * 4), '=']
  | [b1] => [b64Char (b1 / 4), b64Char (b1 % 4 * 16), '=', '=']
  | [] => []

/-- Decode a base64 stream already filtered to alphabet and padding
characters, quad by quad. -/
def b64Quads : List Char → Option (List Nat)
  | [] => some []
  | [c1, c2, c3, c4] =>
    if isB64Char c1 && isB64Char c2 then
      if c3 = '=' && c4 = '=' then some [b64Val c1 * 4 + b64Val c2 / 16]
      else if isB64Char c3 && c4 = '=' then
        some [b64Val c1 * 4 + b64Val c2 / 16, b64Val c2 % 16 * 16 + b64Val c3 / 4]
      else if isB64Char c3 && isB64Char c4 then
        some [b64Val c1 * 4 + b64Val c2 / 16, b64Val c2 % 16 * 16 + b64Val c3 / 4,
          b64Val c3 % 4 * 64 + b64Val c4]
      else none
    else none
  | c1 :: c2 :: c3 :: c4 :: rest =>
    if isB64Char c1 && isB64Char c2 && isB64Char c3 && isB64Char c4 then
      (b64Quads rest).map
        (fun bs => (b64Val c1 * 4 + b64Val c2 / 16) :: (b64Val c2 % 16 * 16 + b64Val c3 / 4) ::
          (b64Val c3 % 4 * 64 + b64Val c4) :: bs)
    else none
  | _ => none

/-- Base64 decoding, `base64.b64decode(s)` with `validate=False`: discard
foreign characters, then decode; `none` models `binascii.Error`, a
`ValueError` the rewriter catches. -/
def b64decode (s : List Char) : Option (List Nat) :=
  b64Quads (s.filter (fun c => isB64Char c || c = '='))

/-! ## Python exceptions and the bundle result -/

/-- The exception classes raised or caught by the modelled code. -/
inductive PyErr : Type where
  | valueError : String → PyErr
  | runtimeError : String → PyErr
  | typeError : String → PyErr
  | bundlerNotFound : String → PyErr
deriving DecidableEq

/-- The `(code, hash)` pair the rest of the package and its tests expect
`bundle_component` to produce (`BundleResult` in `wilco/__init__.py`,
`wilco/bridges/base.py`, `tests/test_bundler.py`). -/
structure BundleResult : Type where
  code : String
  hash : String
deriving DecidableEq

/-! ## pathlib on POSIX -/

/-- Split a character list at every slash. -/
def splitSlash : List Char → List (List Char)
  | [] => [[]]
  | c :: t =>
    if c = '/' then [] :: splitSlash t
    else
      match splitSlash t with
      | seg :: rest => (c :: seg) :: rest
      | [] => [[c]]

/-- The final path component, `PurePosixPath(p).name`: empty and `.`
segments vanish during path parsing; the root alone has no name. -/
def pathName (p : String) : String :=
  match ((splitSlash p.data).filter (fun seg => !(seg.isEmpty || seg == ['.']))).getLast? with
  | some seg => String.mk seg
  | none => ""

/-- The final path component minus its suffix, `PurePosixPath(p).stem`: the
suffix starts at the last dot, provided that dot is neither the leading nor
the trailing character of the name. -/
def pathStem (p : String) : String :=
  let nm := (pathName p).data
  match nm.reverse.findIdx? (· = '.') with
  | some ri =>
    let i := nm.length - 1 - ri
    if 0 < i ∧ i < nm.length - 1 then String.mk (nm.take i) else String.mk nm
  | none => String.mk nm

/-! ## The source-map rewriter (`wilco/bundler.py`, `_rewrite_source_map_sources`) -/

/-- The inline source-map marker the bundler emits. -/
def smMarker : String := "//# sourceMappingURL=data:application/json;base64,"

/-- Split at the last occurrence of `m`, as `s.rsplit(m, 1)`: `none` when
`m` does not occur (the code's `marker not in js_code` early return takes
that branch; when `m` occurs, `rsplit(m, 1)` always yields exactly two
parts, so the code's `len(parts) != 2` arm is dead). -/
def rsplitGo (m : List Char) : List Char → Option (List Char × List Char)
  | [] => none
  | c :: t =>
    match rsplitGo m t with
    | some (b, a) => some (c :: b, a)
    | none => if m.isPrefixOf (c :: t) then some ([], (c :: t).drop m.length) else none

/-- Substring membership, `pat in s` for Python strings. -/
def hasInfix (pat : List Char) : List Char → Bool
  | [] => pat.isEmpty
  | c :: t => pat.isPrefixOf (c :: t) || hasInfix pat t

/-- Elements of the `sources` value as Python strings: `Path(source)`
raises `TypeError` on a non-string element. -/
def asStrList : List Json → Except PyErr (List String)
  | [] => .ok []
  | .str s :: t => (asStrList t).map (s :: ·)
  | _ :: _ => .error (.typeError "argument should be a str or an os.PathLike object")

/-- One rewritten source entry: `component://{component_name}/{basename}`. -/
def componentUrl (componentName source : String) : String :=
  "component://" ++ componentName ++ "/" ++ pathName source

/-- The body of the rewrite once the map has been parsed: the
`"sources" in source_map` membership test (which raises `TypeError` on
non-container payloads), the `for source in source_map["sources"]` loop
(lists yield elements, strings characters, dicts keys; anything else
raises), the in-place `sources` assignment, and otherwise the value passed
through unchanged for re-serialization. -/
def rewriteSources (componentName : String) : Json → Except PyErr Json
  | .obj kvs =>
    match dictLookup kvs "sources" with
    | some (.arr xs) =>
      (asStrList xs).map fun srcs =>
        .obj (dictInsert kvs "sources"
          (.arr (srcs.map fun s => .str (componentUrl componentName s))))
    | some (.str s) =>
      .ok (.obj (dictInsert kvs "sources"
        (.arr (s.data.map fun ch => .str (componentUrl componentName (String.mk [ch]))))))
    | some (.obj inner) =>
      .ok (.obj (dictInsert kvs "sources"
        (.arr (inner.map fun kv => .str (componentUrl componentName kv.1)))))
    | some _ => .error (.typeError "'int' object is not iterable")
    | none => .ok (.obj kvs)
  | .arr xs =>
    if xs.any (fun x => match x with | .str s => s = "sources" | _ => false) then
      .error (.typeError "list indices must be integers or slices, not str")
    else .ok (.arr xs)
  | .str s =>
    if hasInfix "sources".data s.data then
      .error (.typeError "string indices must be integers")
    else .ok (.str s)
  | _ => .error (.typeError "argument of type 'int' is not iterable")

/-- `_rewrite_source_map_sources(js_code, component_name)`: locate the last
inline source-map marker; on a missing marker, an undecodable payload or
invalid JSON return the input unchanged; otherwise rewrite the `sources`
list and re-embed the re-serialized, re-encoded map after the marker. -/
def rewriteSourceMapSources (jsCode componentName : String) : Except PyErr String :=
  match rsplitGo smMarker.data jsCode.data with
  | none => .ok jsCode
  | some (codePart, b64Map) =>
    match (b64decode b64Map).bind utf8Decode with
    | none => .ok jsCode
    | some mapChars =>
      match parseJson mapChars with
      | none => .ok jsCode
      | some sourceMap =>
        (rewriteSources componentName sourceMap).map fun m2 =>
          String.mk (codePart ++ smMarker.data ++ b64encode (utf8Encode (dumpsVal m2)))

/-- Decode the inline source map a code string embeds behind its last
marker, with the same split/base64/UTF-8/JSON steps the rewriter uses:
the observation map under which round-trip claims are stated. -/
def extractSourceMap (code : String) : Option (List Char × Json) :=
  match rsplitGo smMarker.data code.data with
  | none => none
  | some (cp, b64) =>
    match (b64decode b64).bind utf8Decode with
    | none => none
    | some chars => (parseJson chars).map (fun j => (cp, j))

/-! ## bundle_component (`wilco/bundler.py`)

The esbuild resolution and the subprocess are oracles: `esbuild` is the
memoized `_find_esbuild` outcome, `run` the subprocess outcome as
`(returncode, stderr, output-file content)` with `none` for a timeout. -/

/-- Oracle for the external pieces `bundle_component` touches. -/
structure SubprocEnv : Type where
  esbuild : Option String
  run : Option (Int × String × String)

/-- `bundle_component(ts_path, component_name)` exactly as `bundler.py`
defines it: on success the function returns the rewritten JavaScript as a
bare string — it defines no `BundleResult` and computes no hash, although
`wilco/__init__.py` imports `BundleResult` from this module and the tests
and callers read `.code` and `.hash` from its result. -/
def bundleComponentSrc (env : SubprocEnv) (tsPath : String) (componentName : Option String) :
    Except PyErr String :=
  let nm := componentName.getD (pathStem tsPath)
  match env.esbuild with
  | none => .error (.bundlerNotFound "JavaScript bundler (esbuild) not found.")
  | some _ =>
    match env.run with
    | none => .error (.runtimeError "esbuild timed out after 60 seconds")
    | some (rc, stderr, outContent) =>
      if rc ≠ 0 then .error (.runtimeError ("esbuild failed: " ++ stderr))
      else rewriteSourceMapSources outContent nm

/-! ## The component registry (`wilco/registry.py`)

The filesystem is an oracle: `okDir` is `path.exists() and path.is_dir()`,
and `dirsOf` lists the directories a `glob` walk under a source root
visits, in walk order, with their entry-point files and their
symlink-resolved identity. The two glob passes (`**/index.tsx` then
`**/index.ts`) are the two filters of that one walk. -/

/-- One directory under a source root as the discovery scan sees it. -/
structure DirEntry : Type where
  relSegs : List String
  resolvedId : Nat
  hasTsx : Bool
  hasTs : Bool
deriving DecidableEq

/-- Filesystem oracle for registry discovery. -/
structure FS : Type where
  okDir : String → Bool
  dirsOf : String → List DirEntry

/-- A registered component: `Component` in `registry.py` (its lazily
re-read `metadata` property stays a handler-level oracle). -/
structure Component : Type where
  name : String
  packageDir : String
  tsPath : String
deriving DecidableEq

/-- Registry state: the ordered `(path, prefix)` sources and the live
name-to-component dict. -/
structure Registry : Type where
  sources : List (String × String)
  components : List (String × Component)

/-- A freshly constructed registry with no sources. -/
def emptyRegistry : Registry := ⟨[], []⟩

/-- The root-skip and resolved-directory deduplication of the scan:
the source root itself is excluded, and a directory already seen under its
resolved identity is skipped (so a dual `index.tsx`/`index.ts` directory is
taken only from the first pass). -/
def dedupScan (seen : List Nat) : List DirEntry → List DirEntry
  | [] => []
  | e :: t =>
    if e.relSegs = [] then dedupScan seen t
    else if e.resolvedId ∈ seen then dedupScan seen t
    else e :: dedupScan (e.resolvedId :: seen) t

/-- The concatenated glob passes: all `index.tsx` directories, then all
`index.ts` directories. -/
def globEntries (fs : FS) (root : String) : List DirEntry :=
  (fs.dirsOf root).filter (·.hasTsx) ++ (fs.dirsOf root).filter (·.hasTs)

/-- Replace every slash and backslash by a dot: the composition
`.replace("/", ".").replace("\\", ".")` of two single-character
replacements is one character map. -/
def sepToDot (s : List Char) : List Char :=
  s.map (fun c => if c = '/' ∨ c = bsChar then '.' else c)

/-- Component base name: the relative path rendered with `/` separators
(`str(rel_path)` on POSIX), separators then replaced by dots. -/
def entryBaseName (e : DirEntry) : String :=
  String.mk (sepToDot (String.intercalate "/" e.relSegs).data)

/-- The `(name, Component)` pair one scanned directory contributes; a dual
entry-point directory prefers `index.tsx`. -/
def componentOf (root pfx : String) (e : DirEntry) : String × Component :=
  let dir := root ++ "/" ++ String.intercalate "/" e.relSegs
  let base := entryBaseName e
  let nm := if pfx = "" then base else pfx ++ ":" ++ base
  (nm, { name := nm, packageDir := dir,
         tsPath := dir ++ "/" ++ (if e.hasTsx then "index.tsx" else "index.ts") })

/-- The ordered contribution of one source directory's scan. -/
def discoveredList (fs : FS) (root pfx : String) : List (String × Component) :=
  (dedupScan [] (globEntries fs root)).map (componentOf root pfx)

/-- Sequential dict assignment of a list of bindings. -/
def insertAll {β : Type} (m : List (String × β)) (l : List (String × β)) : List (String × β) :=
  l.foldl (fun acc p => dictInsert acc p.1 p.2) m

/-- `_discover_from(components_dir, prefix)`: assign every discovered
component into the live mapping, later entries overwriting earlier ones. -/
def discoverFrom (fs : FS) (root pfx : String) (m : List (String × Component)) :
    List (String × Component) :=
  insertAll m (discoveredList fs root pfx)

/-- `add_source(path, prefix)`: a missing or non-directory path only warns
and changes nothing; otherwise the source is appended and scanned. -/
def addSource (fs : FS) (reg : Registry) (path pfx : String) : Registry :=
  if fs.okDir path then
    { sources := reg.sources ++ [(path, pfx)],
      components := discoverFrom fs path pfx reg.components }
  else reg

/-- `refresh()`: clear the mapping, then re-scan every source in original
registration order. -/
def refresh (fs : FS) (reg : Registry) : Registry :=
  { reg with components := reg.sources.foldl (fun m sp => discoverFrom fs sp.1 sp.2 m) [] }

/-- `refresh()` iterated. -/
def refreshN (fs : FS) : Nat → Registry → Registry
  | 0, reg => reg
  | n + 1, reg => refreshN fs n (refresh fs reg)

/-- A character of the `[a-zA-Z0-9_.:]` class of `_VALID_NAME_RE`. -/
def isNameChar (c : Char) : Bool :=
  (97 ≤ c.toNat && c.toNat ≤ 122) || (65 ≤ c.toNat && c.toNat ≤ 90) ||
    (48 ≤ c.toNat && c.toNat ≤ 57) || c = '_' || c = '.' || c = ':'

/-- The characters the anchored pattern's body must cover: Python's `$`
also matches just before one trailing newline, which the body then need
not cover. -/
def reCore (name : String) : List Char :=
  if name.data.getLast? = some (Char.ofNat 10) then name.data.dropLast else name.data

/-- `_VALID_NAME_RE.match(name)` for the anchored pattern
`^[a-zA-Z0-9_.:]+$`: under Python `$` semantics `"abc\n"` passes. -/
def reNameMatch (name : String) : Bool :=
  !(reCore name).isEmpty && (reCore name).all isNameChar

/-- `ComponentRegistry.get(name)`: reject an empty name, then apply the
validation pattern, then read the dict (`None` when absent). The
`isinstance(name, str)` guard is vacuous in this typed embedding. -/
def regGet (reg : Registry) (name : String) : Except PyErr (Option Component) :=
  if name = "" then .error (.valueError "Component name must be a non-empty string")
  else if !reNameMatch name then
    .error (.valueError ("Component name contains invalid characters: " ++ name ++
      ". Only alphanumerics, underscores, dots, and colons are allowed."))
  else .ok (dictLookup reg.components name)

/-! ## The bundle cache and bridge handlers (`wilco/bridges/base.py`) -/

/-- A cache entry: the `CachedBundle` dataclass. -/
structure CachedBundle : Type where
  result : BundleResult
  mtime : Int
deriving DecidableEq

/-- `BundleCache.get(name, mtime=...)`: the cached result only when an
entry exists and its stored mtime equals the supplied one exactly. -/
def cacheGet (c : List (String × CachedBundle)) (name : String) (mtime : Int) :
    Option BundleResult :=
  match dictLookup c name with
  | some cb => if cb.mtime = mtime then some cb.result else none
  | none => none

/-- `BundleCache.set(name, result, mtime=...)`: unconditional overwrite. -/
def cacheSet (c : List (String × CachedBundle)) (name : String) (result : BundleResult)
    (mtime : Int) : List (String × CachedBundle) :=
  dictInsert c name ⟨result, mtime⟩

/-- `BundleCache.clear(name=None)`: drop one entry or everything. -/
def cacheClear (c : List (String × CachedBundle)) : Option String →
    List (String × CachedBundle)
  | none => []
  | some n => dictRemove c n

/-- Oracle for the effects `BridgeHandlers` composes: `stat` is
`ts_path.stat().st_mtime` (`none` for `OSError`), `bundler` is
`bundle_component(ts_path, component_name=name)` — the repository's own
tests mock exactly this call — and `metaOf` is the component's lazily
loaded `schema.json` metadata. -/
structure HandlerEnv : Type where
  stat : String → Option Int
  bundler : String → String → Except PyErr BundleResult
  metaOf : String → List (String × Json)

/-- `BridgeHandlers.get_bundle(name)`. Besides the optional result and the
updated cache, the embedding returns how many times the external bundler
ran during the call (what Scenario D's mock `call_count` measures). -/
def getBundle (env : HandlerEnv) (reg : Registry) (cache : List (String × CachedBundle))
    (name : String) :
    Except PyErr (Option BundleResult × List (String × CachedBundle) × Nat) :=
  match regGet reg name with
  | .error e => .error e
  | .ok none => .ok (none, cache, 0)
  | .ok (some comp) =>
    match env.stat comp.tsPath with
    | none => .ok (none, cache, 0)
    | some mtime =>
      match cacheGet cache name mtime with
      | some r => .ok (some r, cache, 0)
      | none =>
        match env.bundler comp.tsPath name with
        | .error e => .error e
        | .ok r => .ok (some r, cacheSet cache name r mtime, 1)

/-- `BridgeHandlers.get_metadata(name)`: the metadata dict, with the hash
assigned only when `get_bundle` returned a (truthy) result. The
`get_bundle` call sits in no `try` block, so its exceptions escape. -/
def getMetadata (env : HandlerEnv) (reg : Registry) (cache : List (String × CachedBundle))
    (name : String) :
    Except PyErr (Option (List (String × Json)) × List (String × CachedBundle)) :=
  match regGet reg name with
  | .error e => .error e
  | .ok none => .ok (none, cache)
  | .ok (some comp) =>
    let md := env.metaOf comp.packageDir
    match getBundle env reg cache name with
    | .error e => .error e
    | .ok (some r, cache2, _) => .ok (some (dictInsert md "hash" (.str r.hash)), cache2)
    | .ok (none, cache2, _) => .ok (some md, cache2)

/-- `BridgeHandlers.list_bundles()`: one `{"name": name}` dict per
registered component, in dict order. -/
def listBundles (reg : Registry) : List Json :=
  reg.components.map (fun p => .obj [("name", .str p.1)])

/-- `get_bundle_metadata` of the standalone `wilco/bridges/fastapi.py`
module: unlike `BridgeHandlers.get_metadata` it wraps its direct
`bundle_component` call in `try/except RuntimeError` and skips the hash
when bundling fails (no cache is involved there). -/
def fastapiGetBundleMetadata (env : HandlerEnv) (reg : Registry) (name : String) :
    Except PyErr (Option (List (String × Json))) :=
  match regGet reg name with
  | .error e => .error e
  | .ok none => .ok none
  | .ok (some comp) =>
    let md := env.metaOf comp.packageDir
    match env.bundler comp.tsPath name with
    | .ok r => .ok (some (dictInsert md "hash" (.str r.hash)))
    | .error (.runtimeError _) => .ok (some md)
    | .error e => .error e

/-! ## Lemmas: the dict model -/

theorem dictLookup_dictInsert {β : Type} (m : List (String × β)) (k n : String) (v : β) :
    dictLookup (dictInsert m k v) n = if k = n then some v else dictLookup m n := by
  induction m with
  | nil => simp [dictInsert, dictLookup]
  | cons p t ih =>
    obtain ⟨k1, v1⟩ := p
    simp only [dictInsert]
    by_cases h1 : k1 = k
    · subst h1
      rw [if_pos rfl]
      simp only [dictLookup]
      by_cases h2 : k1 = n <;> simp [h2]
    · rw [if_neg h1]
      simp only [dictLookup, ih]
      by_cases h2 : k1 = n
      · subst h2
        have h3 : ¬ k = k1 := fun hh => h1 hh.symm
        simp [h3]
      · simp [h2]

theorem dictLookup_eq_none_iff {β : Type} (m : List (String × β)) (n : String) :
    dictLookup m n = none ↔ n ∉ m.map Prod.fst := by
  induction m with
  | nil => simp [dictLookup]
  | cons p t ih =>
    obtain ⟨k1, v1⟩ := p
    simp only [dictLookup, List.map_cons, List.mem_cons]
    by_cases h : k1 = n
    · subst h; simp
    · simp only [if_neg h, ih]
      constructor
      · intro h2 h3
        rcases h3 with h3 | h3
        · exact h h3.symm
        · exact h2 h3
      · intro h2 h3
        exact h2 (Or.inr h3)

theorem dictLookup_dictRemove_ne {β : Type} (m : List (String × β)) (k n : String)
    (h : k ≠ n) : dictLookup (dictRemove m n) k = dictLookup m k := by
  induction m with
  | nil => simp [dictRemove]
  | cons p t ih =>
    obtain ⟨k1, v1⟩ := p
    simp only [dictRemove]
    split_ifs with h1
    · subst h1
      simp only [dictLookup]
      have : ¬ k1 = k := fun hk => h (hk ▸ rfl)
      simp [this]
    · simp only [dictLookup, ih]

theorem dictLookup_dictRemove_self {β : Type} (m : List (String × β)) (n : String)
    (h : (m.map Prod.fst).Nodup) : dictLookup (dictRemove m n) n = none := by
  induction m with
  | nil => simp [dictRemove, dictLookup]
  | cons p t ih =>
    obtain ⟨k1, v1⟩ := p
    simp only [List.map_cons, List.nodup_cons] at h
    simp only [dictRemove]
    split_ifs with h1
    · subst h1
      exact (dictLookup_eq_none_iff t k1).mpr h.1
    · simp only [dictLookup, if_neg h1]
      exact ih h.2

theorem dictRemove_eq_self {β : Type} (m : List (String × β)) (n : String)
    (h : dictLookup m n = none) : dictRemove m n = m := by
  induction m with
  | nil => rfl
  | cons p t ih =>
    obtain ⟨k1, v1⟩ := p
    simp only [dictLookup] at h
    by_cases h1 : k1 = n
    · simp [h1] at h
    · simp only [dictRemove, if_neg h1]
      rw [ih (by simpa [h1] using h)]

/-! ## Claim C4 -/

/-- C4: immediately after `BundleCache.set(name, R, mtime=T2)`,
`BundleCache.get(name, mtime=T)` returns `R` exactly when `T == T2` and
`None` otherwise; and in any cache state, `get` returns a result exactly
when an entry exists for the name whose stored mtime equals the supplied
mtime. -/
theorem bundleCache_get_set_exact (c : List (String × CachedBundle)) (name : String)
    (r : BundleResult) (T T2 : Int) :
    (cacheGet (cacheSet c name r T2) name T = if T = T2 then some r else none) ∧
    (cacheGet c name T = some r ↔ dictLookup c name = some ⟨r, T⟩) := by
  constructor
  · simp only [cacheGet, cacheSet, dictLookup_dictInsert, if_pos rfl]
    by_cases h : T = T2
    · subst h; simp
    · have h2 : ¬ T2 = T := fun hh => h hh.symm
      simp [h, h2]
  · simp only [cacheGet]
    cases hl : dictLookup c name with
    | none => simp
    | some cb =>
      obtain ⟨r1, t1⟩ := cb
      by_cases h : t1 = T
      · subst h
        simp only [if_pos rfl]
        constructor
        · rintro h2; cases h2; rfl
        · rintro h2; cases h2; rfl
      · simp only [if_neg h]
        constructor
        · rintro ⟨⟩
        · rintro h2
          injection h2 with h3
          cases h3
          exact (h rfl).elim

/-- Last-binding lookup: the value of the final occurrence of a key in an
assignment sequence. -/
def lastLookup {β : Type} (l : List (String × β)) (n : String) : Option β :=
  dictLookup l.reverse n

theorem dictLookup_append {β : Type} (a b : List (String × β)) (n : String) :
    dictLookup (a ++ b) n =
      match dictLookup a n with
      | some v => some v
      | none => dictLookup b n := by
  induction a with
  | nil => simp [dictLookup]
  | cons p t ih =>
    obtain ⟨k1, v1⟩ := p
    simp only [List.cons_append, dictLookup]
    by_cases h : k1 = n <;> simp [h, ih]

theorem lastLookup_cons {β : Type} (k : String) (v : β) (t : List (String × β)) (n : String) :
    lastLookup ((k, v) :: t) n =
      match lastLookup t n with
      | some w => some w
      | none => if k = n then some v else none := by
  simp only [lastLookup, List.reverse_cons, dictLookup_append]
  cases dictLookup t.reverse n <;> simp [dictLookup]

theorem lastLookup_eq_none_iff {β : Type} (l : List (String × β)) (n : String) :
    lastLookup l n = none ↔ n ∉ l.map Prod.fst := by
  rw [lastLookup, dictLookup_eq_none_iff]
  simp

theorem dictLookup_mem {β : Type} (l : List (String × β)) (n : String) (v : β)
    (h : dictLookup l n = some v) : (n, v) ∈ l := by
  induction l with
  | nil => simp [dictLookup] at h
  | cons p t ih =>
    obtain ⟨k1, v1⟩ := p
    simp only [dictLookup] at h
    by_cases h1 : k1 = n
    · subst h1
      rw [if_pos rfl] at h
      cases h
      exact List.mem_cons_self _ _
    · rw [if_neg h1] at h
      exact List.mem_cons_of_mem _ (ih h)

theorem lastLookup_mem {β : Type} (l : List (String × β)) (n : String) (v : β)
    (h : lastLookup l n = some v) : (n, v) ∈ l := by
  have h2 := dictLookup_mem _ _ _ h
  exact List.mem_reverse.mp h2

theorem insertAll_cons {β : Type} (m : List (String × β)) (p : String × β)
    (t : List (String × β)) : insertAll m (p :: t) = insertAll (dictInsert m p.1 p.2) t := rfl

theorem dictLookup_insertAll_not_mem {β : Type} (l : List (String × β)) :
    ∀ (m : List (String × β)) (n : String), n ∉ l.map Prod.fst →
      dictLookup (insertAll m l) n = dictLookup m n := by
  induction l with
  | nil => intro m n _; rfl
  | cons p t ih =>
    intro m n h
    obtain ⟨k, v⟩ := p
    simp only [List.map_cons, List.mem_cons, not_or] at h
    rw [insertAll_cons, ih (dictInsert m k v) n h.2, dictLookup_dictInsert]
    have h3 : ¬ k = n := fun hh => h.1 hh.symm
    rw [if_neg h3]

theorem dictLookup_insertAll_mem {β : Type} (l : List (String × β)) :
    ∀ (m : List (String × β)) (n : String), n ∈ l.map Prod.fst →
      dictLookup (insertAll m l) n = lastLookup l n := by
  induction l with
  | nil => intro m n h; simp at h
  | cons p t ih =>
    intro m n h
    obtain ⟨k, v⟩ := p
    rw [insertAll_cons, lastLookup_cons]
    by_cases ht : n ∈ t.map Prod.fst
    · rw [ih _ n ht]
      cases hl : lastLookup t n with
      | some w => rfl
      | none => exact absurd ht ((lastLookup_eq_none_iff t n).mp hl)
    · simp only [List.map_cons, List.mem_cons] at h
      have hk : n = k := h.resolve_right ht
      subst hk
      rw [dictLookup_insertAll_not_mem t _ _ ht, dictLookup_dictInsert,
        (lastLookup_eq_none_iff t n).mpr ht]
      simp

theorem regGet_of_match (reg : Registry) (name : String) (hm : reNameMatch name = true) :
    regGet reg name = .ok (dictLookup reg.components name) := by
  have hne : ¬ name = "" := by
    intro h
    subst h
    simp [reNameMatch, reCore] at hm
  simp [regGet, hne, hm]

/-! ## Claim C3 -/

/-- C3 counterexample: the name `"abc\n"` contains a character outside
`[A-Za-z0-9_.:]`, yet `Registry.get` does not raise on it — the Python
anchor `$` matches before a trailing newline, so `^[a-zA-Z0-9_.:]+$`
accepts the string and the lookup proceeds (returning `None` on an empty
registry). This falsifies the claimed equivalence. -/
theorem registry_get_trailing_newline_cex :
    regGet emptyRegistry (String.mk ['a', 'b', 'c', Char.ofNat 10]) = .ok none ∧
    isNameChar (Char.ofNat 10) = false ∧
    Char.ofNat 10 ∈ (String.mk ['a', 'b', 'c', Char.ofNat 10]).data := by
  refine ⟨rfl, rfl, by decide⟩

theorem reNameMatch_iff (name : String) :
    reNameMatch name = true ↔
      ((name.data ≠ [] ∧ name.data.all isNameChar = true) ∨
        (∃ core, name.data = core ++ [Char.ofNat 10] ∧ core ≠ [] ∧
          core.all isNameChar = true)) := by
  rcases List.eq_nil_or_concat name.data with hn | ⟨l2, c, hn⟩
  · simp [reNameMatch, reCore, hn]
  · rw [List.concat_eq_append] at hn
    by_cases hc : c = Char.ofNat 10
    · subst hc
      have hcore : reCore name = l2 := by
        simp [reCore, hn, List.getLast?_concat, List.dropLast_concat]
      simp only [reNameMatch, hcore, hn, Bool.and_eq_true, Bool.not_eq_true']
      constructor
      · rintro ⟨h1, h2⟩
        exact Or.inr ⟨l2, rfl, by simpa [List.isEmpty_iff] using h1, h2⟩
      · rintro (⟨h1, h2⟩ | ⟨core, hcore2, h1, h2⟩)
        · exfalso
          simp only [List.all_append, List.all_cons, List.all_nil,
            Bool.and_eq_true] at h2
          have h3 : isNameChar (Char.ofNat 10) = true := by
            simpa using h2.2
          simp [isNameChar] at h3
        · have hcl : l2 = core := by
            have h6 := congrArg List.dropLast hcore2
            simpa [List.dropLast_concat] using h6
          subst hcl
          exact ⟨by simpa [List.isEmpty_iff] using h1, h2⟩
    · have hcore : reCore name = l2 ++ [c] := by
        simp [reCore, hn, List.getLast?_concat, hc]
      simp only [reNameMatch, hcore, hn, Bool.and_eq_true, Bool.not_eq_true']
      constructor
      · rintro ⟨h1, h2⟩
        exact Or.inl ⟨by simp, h2⟩
      · rintro (⟨h1, h2⟩ | ⟨core, hcore2, h1, h2⟩)
        · exact ⟨by simp [List.isEmpty_iff], h2⟩
        · exfalso
          have h6 := congrArg List.getLast? hcore2
          rw [List.getLast?_concat, List.getLast?_concat] at h6
          exact hc (Option.some.inj h6)
/-- C3 amended: `Registry.get(name)` raises exactly when `name` is empty
or fails the anchored pattern `^[a-zA-Z0-9_.:]+$`; under Python `$`
semantics that pattern also accepts exactly one trailing newline after at
least one valid character, so "contains any character outside the class"
over-approximates the raising condition by precisely that family. Every
nonempty name built from `[A-Za-z0-9_.:]` alone never raises, and the
lookup returns the registered component or `None` via the dict. -/
theorem registry_get_validation (reg : Registry) (name : String) :
    ((∃ e, regGet reg name = .error e) ↔ (name = "" ∨ reNameMatch name = false)) ∧
    (reNameMatch name = true → regGet reg name = .ok (dictLookup reg.components name)) ∧
    (name ≠ "" → name.data.all isNameChar = true →
      regGet reg name = .ok (dictLookup reg.components name)) ∧
    (reNameMatch name = true ↔
      ((name.data ≠ [] ∧ name.data.all isNameChar = true) ∨
        (∃ core, name.data = core ++ [Char.ofNat 10] ∧ core ≠ [] ∧
          core.all isNameChar = true))) := by
  have hok := regGet_of_match reg name
  refine ⟨?_, hok, ?_, reNameMatch_iff name⟩
  · by_cases he : name = ""
    · subst he
      simp [regGet]
    · by_cases hm : reNameMatch name
      · rw [hok hm]
        simp [he, hm]
      · simp only [Bool.not_eq_true] at hm
        simp [regGet, he, hm]
  · intro h1 h2
    apply hok
    rw [reNameMatch_iff name]
    refine Or.inl ⟨?_, h2⟩
    intro hd
    apply h1
    cases name with
    | mk l => exact congrArg String.mk hd

/-- C3 witness: the amended validation behaviour exercised on concrete
well-formed names against the empty registry. -/
theorem registry_get_validation_witness :
    regGet emptyRegistry "widgets.counter" = .ok none ∧
    regGet emptyRegistry "myapp:widget" = .ok none := by
  constructor
  · exact (registry_get_validation emptyRegistry "widgets.counter").2.2.1
      (by decide) (by decide)
  · exact (registry_get_validation emptyRegistry "myapp:widget").2.1 (by decide)

/-! ## Claim C10 -/

/-- C10: `BundleCache.clear(name)` is total (a no-op when the name has no
entry), leaves every other key's entry unchanged and, in a well-formed
cache (distinct keys, as every dict is), removes exactly the named entry;
`BundleCache.clear()` with no name empties the whole map. -/
theorem bundleCache_clear_frame (c : List (String × CachedBundle)) (n : String)
    (h : (c.map Prod.fst).Nodup) :
    (∀ k m, k ≠ n → cacheGet (cacheClear c (some n)) k m = cacheGet c k m) ∧
    (dictLookup (cacheClear c (some n)) n = none) ∧
    (dictLookup c n = none → cacheClear c (some n) = c) ∧
    (cacheClear c none = []) := by
  refine ⟨?_, ?_, ?_, rfl⟩
  · intro k m hk
    simp only [cacheClear, cacheGet, dictLookup_dictRemove_ne c k n hk]
  · exact dictLookup_dictRemove_self c n h
  · exact dictRemove_eq_self c n

/-- C10 witness: the frame property evaluated on a concrete two-entry
cache. -/
theorem bundleCache_clear_frame_witness :
    (cacheGet (cacheClear [("a", ⟨⟨"c1", "h1"⟩, 3⟩), ("b", ⟨⟨"c2", "h2"⟩, 4⟩)] (some "a")) "b" 4 =
      cacheGet [("a", ⟨⟨"c1", "h1"⟩, 3⟩), ("b", ⟨⟨"c2", "h2"⟩, 4⟩)] "b" 4) ∧
    dictLookup (cacheClear [("a", ⟨⟨"c1", "h1"⟩, 3⟩), ("b", ⟨⟨"c2", "h2"⟩, 4⟩)] (some "a")) "a"
      = none := by
  have h := bundleCache_clear_frame [("a", ⟨⟨"c1", "h1"⟩, 3⟩), ("b", ⟨⟨"c2", "h2"⟩, 4⟩)] "a"
    (by simp)
  exact ⟨h.1 "b" 4 (by decide), h.2.1⟩

/-! ## Claim C7 -/

theorem refresh_idem (fs : FS) (reg : Registry) : refresh fs (refresh fs reg) = refresh fs reg := rfl

theorem refreshN_refresh (fs : FS) : ∀ (k : Nat) (reg : Registry),
    refreshN fs k (refresh fs reg) = refresh fs reg
  | 0, _ => rfl
  | k + 1, reg => by
    show refreshN fs k (refresh fs (refresh fs reg)) = _
    rw [refresh_idem]
    exact refreshN_refresh fs k reg

theorem addSource_sources (fs : FS) (reg : Registry) (path pfx : String)
    (h : fs.okDir path = true) :
    (addSource fs reg path pfx).sources = reg.sources ++ [(path, pfx)] := by
  simp [addSource, h]

theorem addSource_components (fs : FS) (reg : Registry) (path pfx : String)
    (h : fs.okDir path = true) :
    (addSource fs reg path pfx).components =
      insertAll reg.components (discoveredList fs path pfx) := by
  simp [addSource, h, discoverFrom]

/-- C7: when sources S1 and S2 are registered in that order and S2's scan
discovers a validly named component, the registry resolves that name to
S2's descriptor — the last assignment S2's scan makes for it — and the
resolution survives any number of `refresh()` calls, because refresh
re-scans the recorded sources in original registration order. -/
theorem registry_last_write_wins (fs : FS) (p1 x1 p2 x2 n : String)
    (hok : fs.okDir p2 = true)
    (hmem : n ∈ (discoveredList fs p2 x2).map Prod.fst)
    (hvalid : reNameMatch n = true) :
    (regGet (addSource fs (addSource fs emptyRegistry p1 x1) p2 x2) n =
      .ok (lastLookup (discoveredList fs p2 x2) n)) ∧
    (∃ c, lastLookup (discoveredList fs p2 x2) n = some c ∧
      (n, c) ∈ discoveredList fs p2 x2) ∧
    (∀ k, regGet (refreshN fs k (addSource fs (addSource fs emptyRegistry p1 x1) p2 x2)) n =
      regGet (addSource fs (addSource fs emptyRegistry p1 x1) p2 x2) n) := by
  have hcomp2 := addSource_components fs (addSource fs emptyRegistry p1 x1) p2 x2 hok
  have hsrc2 := addSource_sources fs (addSource fs emptyRegistry p1 x1) p2 x2 hok
  have hmain : regGet (addSource fs (addSource fs emptyRegistry p1 x1) p2 x2) n =
      .ok (lastLookup (discoveredList fs p2 x2) n) := by
    rw [regGet_of_match _ _ hvalid, hcomp2, dictLookup_insertAll_mem _ _ _ hmem]
  refine ⟨hmain, ?_, ?_⟩
  · cases hl : lastLookup (discoveredList fs p2 x2) n with
    | none => exact absurd hmem ((lastLookup_eq_none_iff _ _).mp hl)
    | some c => exact ⟨c, rfl, lastLookup_mem _ _ _ hl⟩
  · have hrefresh : dictLookup
        ((refresh fs (addSource fs (addSource fs emptyRegistry p1 x1) p2 x2)).components) n =
        lastLookup (discoveredList fs p2 x2) n := by
      show dictLookup
        (((addSource fs (addSource fs emptyRegistry p1 x1) p2 x2).sources).foldl
          (fun m sp => discoverFrom fs sp.1 sp.2 m) []) n = _
      rw [hsrc2, List.foldl_append]
      exact dictLookup_insertAll_mem _ _ _ hmem
    intro k
    cases k with
    | zero => rfl
    | succ k =>
      show regGet (refreshN fs k
        (refresh fs (addSource fs (addSource fs emptyRegistry p1 x1) p2 x2))) n = _
      rw [refreshN_refresh, regGet_of_match _ _ hvalid, hrefresh, hmain]

/-- Two concrete sources whose scans both yield the component name `x`. -/
def fs7 : FS where
  okDir := fun p => p = "s1" || p = "s2"
  dirsOf := fun p =>
    if p = "s1" then [⟨["x"], 0, true, false⟩]
    else if p = "s2" then [⟨["x"], 1, true, false⟩]
    else []

/-- C7 witness: the last-write-wins resolution and its refresh stability on
two concrete colliding sources. -/
theorem registry_last_write_wins_witness :
    (regGet (addSource fs7 (addSource fs7 emptyRegistry "s1" "") "s2" "") "x" =
      .ok (lastLookup (discoveredList fs7 "s2" "") "x")) ∧
    (regGet (refreshN fs7 3 (addSource fs7 (addSource fs7 emptyRegistry "s1" "") "s2" "")) "x" =
      regGet (addSource fs7 (addSource fs7 emptyRegistry "s1" "") "s2" "") "x") := by
  have h := registry_last_write_wins fs7 "s1" "" "s2" "" "x" (by decide) (by decide) (by decide)
  exact ⟨h.1, h.2.2 3⟩

/-! ## Claim C9 -/

/-- A source directory holding one component directory named `my-widget`. -/
def fs9 : FS where
  okDir := fun p => p = "app/components"
  dirsOf := fun p => if p = "app/components" then [⟨["my-widget"], 0, true, false⟩] else []

/-- A handler oracle for the C9 scenario. -/
def env9 : HandlerEnv where
  stat := fun _ => some 1
  bundler := fun _ _ => .ok ⟨"code", "hash"⟩
  metaOf := fun _ => []

/-- C9: discovery derives component names without validating them: a
directory called `my-widget` yields a registry entry that `list_bundles`
reports, while `get_bundle` and `get_metadata` on that very name raise the
invalid-argument `ValueError` — a listed component is unreachable through
the lookup operations. -/
theorem discovery_unvalidated_name :
    listBundles (addSource fs9 emptyRegistry "app/components" "") =
      [Json.obj [("name", Json.str "my-widget")]] ∧
    (∃ e, getBundle env9 (addSource fs9 emptyRegistry "app/components" "") [] "my-widget"
      = .error e) ∧
    (∃ e, getMetadata env9 (addSource fs9 emptyRegistry "app/components" "") [] "my-widget"
      = .error e) := by
  refine ⟨rfl, ⟨_, rfl⟩, ⟨_, rfl⟩⟩

/-! ## Claim C8 -/

/-- C8: starting from an empty cache, a first `get_bundle` call invokes the
bundler once and stores the result under the observed mtime; a second call
with the file unchanged is a pure cache hit with zero invocations; a call
after the mtime changed misses the cache and invokes the bundler again. -/
theorem getBundle_cache_hit_and_invalidation
    (env env2 : HandlerEnv) (reg : Registry) (name : String) (comp : Component)
    (r r2 : BundleResult) (t t2 : Int)
    (hreg : regGet reg name = .ok (some comp))
    (hstat : env.stat comp.tsPath = some t)
    (hbundle : env.bundler comp.tsPath name = .ok r)
    (hstat2 : env2.stat comp.tsPath = some t2)
    (hne : t2 ≠ t)
    (hbundle2 : env2.bundler comp.tsPath name = .ok r2) :
    (getBundle env reg [] name = .ok (some r, cacheSet [] name r t, 1)) ∧
    (getBundle env reg (cacheSet [] name r t) name = .ok (some r, cacheSet [] name r t, 0)) ∧
    (getBundle env2 reg (cacheSet [] name r t) name =
      .ok (some r2, cacheSet (cacheSet [] name r t) name r2 t2, 1)) := by
  refine ⟨?_, ?_, ?_⟩
  · simp [getBundle, hreg, hstat, hbundle, cacheGet, dictLookup]
  · simp [getBundle, hreg, hstat, cacheGet, cacheSet, dictInsert, dictLookup]
  · have hne2 : ¬ t = t2 := fun h => hne h.symm
    simp [getBundle, hreg, hstat2, hbundle2, cacheGet, cacheSet, dictInsert, dictLookup, hne2]

/-- A source holding one component directory `comp`. -/
def fs8 : FS where
  okDir := fun p => p = "cdir"
  dirsOf := fun p => if p = "cdir" then [⟨["comp"], 0, true, false⟩] else []

/-- First-call handler oracle: mtime 10. -/
def env8 : HandlerEnv where
  stat := fun _ => some 10
  bundler := fun _ _ => .ok ⟨"code8", "hash8"⟩
  metaOf := fun _ => []

/-- Post-touch handler oracle: mtime 11, fresh bundle output. -/
def env8b : HandlerEnv where
  stat := fun _ => some 11
  bundler := fun _ _ => .ok ⟨"code8b", "hash8b"⟩
  metaOf := fun _ => []

/-- C8 witness: the exactly-once bundling and the mtime invalidation on a
concrete registry, cache and oracle pair. -/
theorem getBundle_cache_witness :
    (getBundle env8 (addSource fs8 emptyRegistry "cdir" "") [] "comp" =
      .ok (some ⟨"code8", "hash8"⟩, cacheSet [] "comp" ⟨"code8", "hash8"⟩ 10, 1)) ∧
    (getBundle env8 (addSource fs8 emptyRegistry "cdir" "")
        (cacheSet [] "comp" ⟨"code8", "hash8"⟩ 10) "comp" =
      .ok (some ⟨"code8", "hash8"⟩, cacheSet [] "comp" ⟨"code8", "hash8"⟩ 10, 0)) ∧
    (getBundle env8b (addSource fs8 emptyRegistry "cdir" "")
        (cacheSet [] "comp" ⟨"code8", "hash8"⟩ 10) "comp" =
      .ok (some ⟨"code8b", "hash8b"⟩,
        cacheSet (cacheSet [] "comp" ⟨"code8", "hash8"⟩ 10) "comp" ⟨"code8b", "hash8b"⟩ 11, 1)) := by
  have h := getBundle_cache_hit_and_invalidation env8 env8b
    (addSource fs8 emptyRegistry "cdir" "") "comp"
    ⟨"comp", "cdir/comp", "cdir/comp/index.tsx"⟩
    ⟨"code8", "hash8"⟩ ⟨"code8b", "hash8b"⟩ 10 11
    rfl rfl rfl rfl (by decide) rfl
  exact h

/-! ## Claim C1 -/

/-- A source holding one component directory `c`. -/
def fs1 : FS where
  okDir := fun p => p = "r"
  dirsOf := fun p => if p = "r" then [⟨["c"], 0, true, false⟩] else []

/-- Handler oracle whose bundler raises `RuntimeError`. -/
def env1 : HandlerEnv where
  stat := fun _ => some 5
  bundler := fun _ _ => .error (.runtimeError "esbuild failed: boom")
  metaOf := fun _ => [("title", Json.str "T")]

/-- C1 counterexample: the registry lookup succeeds, the bundler raises
`RuntimeError`, and `BridgeHandlers.get_metadata` propagates that failure
to its caller instead of returning the metadata dict with `hash`
omitted. -/
theorem getMetadata_propagates_bundle_failure :
    getMetadata env1 (addSource fs1 emptyRegistry "r" "") [] "c" =
      .error (.runtimeError "esbuild failed: boom") := rfl

/-- C1 amended: in `BridgeHandlers.get_metadata` a bundling exception
escapes to the caller (nothing catches the `get_bundle` call); the hash is
omitted only when `get_bundle` returns `None` without raising, e.g. when
the entry file's stat fails. The omit-hash-on-bundling-failure behaviour
the claim describes exists only in the standalone fastapi bridge's
`get_bundle_metadata`, which catches `RuntimeError` around its direct
`bundle_component` call. -/
theorem getMetadata_error_paths (env : HandlerEnv) (reg : Registry)
    (cache : List (String × CachedBundle)) (name msg : String) (comp : Component)
    (e : PyErr) (t : Int)
    (hreg : regGet reg name = .ok (some comp)) :
    (env.stat comp.tsPath = some t → cacheGet cache name t = none →
      env.bundler comp.tsPath name = .error e →
      getMetadata env reg cache name = .error e) ∧
    (env.stat comp.tsPath = none →
      getMetadata env reg cache name = .ok (some (env.metaOf comp.packageDir), cache)) ∧
    (env.bundler comp.tsPath name = .error (.runtimeError msg) →
      fastapiGetBundleMetadata env reg name = .ok (some (env.metaOf comp.packageDir))) := by
  refine ⟨?_, ?_, ?_⟩
  · intro hstat hmiss hbundle
    simp [getMetadata, getBundle, hreg, hstat, hmiss, hbundle]
  · intro hstat
    simp [getMetadata, getBundle, hreg, hstat]
  · intro hbundle
    simp [fastapiGetBundleMetadata, hreg, hbundle]

/-- Handler oracle whose stat raises `OSError`. -/
def env1b : HandlerEnv where
  stat := fun _ => none
  bundler := fun _ _ => .ok ⟨"c", "h"⟩
  metaOf := fun _ => [("title", Json.str "T")]

/-- C1 witness: the three amended error paths exercised on concrete
registries and oracles. -/
theorem getMetadata_error_paths_witness :
    (getMetadata env1 (addSource fs1 emptyRegistry "r" "") [] "c" =
      .error (.runtimeError "esbuild failed: boom")) ∧
    (getMetadata env1b (addSource fs1 emptyRegistry "r" "") [] "c" =
      .ok (some [("title", Json.str "T")], [])) ∧
    (fastapiGetBundleMetadata env1 (addSource fs1 emptyRegistry "r" "") "c" =
      .ok (some [("title", Json.str "T")])) := by
  refine ⟨?_, ?_, ?_⟩
  · exact (getMetadata_error_paths env1 (addSource fs1 emptyRegistry "r" "") [] "c" "boom"
      ⟨"c", "r/c", "r/c/index.tsx"⟩ (.runtimeError "esbuild failed: boom") 5 rfl).1
      rfl rfl rfl
  · exact (getMetadata_error_paths env1b (addSource fs1 emptyRegistry "r" "") [] "c" "boom"
      ⟨"c", "r/c", "r/c/index.tsx"⟩ (.runtimeError "x") 5 rfl).2.1 rfl
  · exact (getMetadata_error_paths env1 (addSource fs1 emptyRegistry "r" "") [] "c"
      "esbuild failed: boom" ⟨"c", "r/c", "r/c/index.tsx"⟩ (.runtimeError "x") 5 rfl).2.2 rfl

/-! ## Claim C2 -/

/-- C2 (code bug): on a successful esbuild run, `bundle_component` as
defined in `bundler.py` returns the rewritten JavaScript as a bare string:
no `BundleResult` wrapping and no content hash exist in that module, even
though `wilco/__init__.py` does `from .bundler import BundleResult`, the
bridges read `.code` and `.hash` off its result, and
`tests/test_bundler.py` asserts a `BundleResult` whose `hash` has the 12
leading characters of a SHA-256 digest. -/
theorem bundleComponentSrc_returns_bare_string :
    bundleComponentSrc ⟨some "esbuild", some (0, "", "console.log(1);")⟩
      "comp/index.tsx" (some "comp") = .ok "console.log(1);" := rfl

/-! ## Lemmas toward the source-map round trip

Wrappers that forget the parsers' length proofs, so that facts about them
can be stated across inputs of different lengths. -/

/-- `parseValue` with the length proof erased. -/
def pvW (s : List Char) : Option (Json × List Char) :=
  (parseValue s).map (fun p => (p.1, p.2.1))

/-- `parseStringBody` with the length proof erased. -/
def psbW (s : List Char) : Option (List Char × List Char) :=
  (parseStringBody s).map (fun p => (p.1, p.2.1))

/-- `parseNat` with the length proof erased. -/
def pnW (s : List Char) : Option (Nat × List Char) :=
  (parseNat s).map (fun p => (p.1, p.2.1))

/-- `parseItemsLoop` with the length proof erased. -/
def pilW (acc : List Json) (s : List Char) : Option (List Json × List Char) :=
  (parseItemsLoop acc s).map (fun p => (p.1, p.2.1))

/-- `parseMemberAt` with the length proof erased. -/
def pmW (s : List Char) : Option ((String × Json) × List Char) :=
  (parseMemberAt s).map (fun p => (p.1, p.2.1))

/-- `parseMembersLoop` with the length proof erased. -/
def pmlW (acc : List (String × Json)) (s : List Char) :
    Option (List (String × Json) × List Char) :=
  (parseMembersLoop acc s).map (fun p => (p.1, p.2.1))

/-- `nextTok` with the length proof erased. -/
def ntW (s : List Char) : Option (Char × List Char) :=
  (nextTok s).map (fun p => (p.1, p.2.1))

theorem pvW_elim {s : List Char} {j : Json} {r : List Char}
    (h : pvW s = some (j, r)) :
    ∃ hlt : r.length < s.length, parseValue s = some (j, ⟨r, hlt⟩) := by
  unfold pvW at h
  cases hp : parseValue s with
  | none => rw [hp] at h; cases h
  | some p =>
    obtain ⟨j2, r2, hl⟩ := p
    rw [hp] at h
    simp only [Option.map_some', Option.some.injEq, Prod.mk.injEq] at h
    obtain ⟨hj, hr⟩ := h
    subst hj
    subst hr
    exact ⟨hl, rfl⟩

theorem psbW_elim {s : List Char} {cs r : List Char}
    (h : psbW s = some (cs, r)) :
    ∃ hlt : r.length < s.length, parseStringBody s = some (cs, ⟨r, hlt⟩) := by
  unfold psbW at h
  cases hp : parseStringBody s with
  | none => rw [hp] at h; cases h
  | some p =>
    obtain ⟨j2, r2, hl⟩ := p
    rw [hp] at h
    simp only [Option.map_some', Option.some.injEq, Prod.mk.injEq] at h
    obtain ⟨hj, hr⟩ := h
    subst hj
    subst hr
    exact ⟨hl, rfl⟩

theorem pnW_elim {s : List Char} {n : Nat} {r : List Char}
    (h : pnW s = some (n, r)) :
    ∃ hlt : r.length < s.length, parseNat s = some (n, ⟨r, hlt⟩) := by
  unfold pnW at h
  cases hp : parseNat s with
  | none => rw [hp] at h; cases h
  | some p =>
    obtain ⟨j2, r2, hl⟩ := p
    rw [hp] at h
    simp only [Option.map_some', Option.some.injEq, Prod.mk.injEq] at h
    obtain ⟨hj, hr⟩ := h
    subst hj
    subst hr
    exact ⟨hl, rfl⟩

theorem pilW_elim {acc : List Json} {s : List Char} {js : List Json} {r : List Char}
    (h : pilW acc s = some (js, r)) :
    ∃ hle : r.length ≤ s.length, parseItemsLoop acc s = some (js, ⟨r, hle⟩) := by
  unfold pilW at h
  cases hp : parseItemsLoop acc s with
  | none => rw [hp] at h; cases h
  | some p =>
    obtain ⟨j2, r2, hl⟩ := p
    rw [hp] at h
    simp only [Option.map_some', Option.some.injEq, Prod.mk.injEq] at h
    obtain ⟨hj, hr⟩ := h
    subst hj
    subst hr
    exact ⟨hl, rfl⟩

theorem pmW_elim {s : List Char} {kv : String × Json} {r : List Char}
    (h : pmW s = some (kv, r)) :
    ∃ hlt : r.length < s.length, parseMemberAt s = some (kv, ⟨r, hlt⟩) := by
  unfold pmW at h
  cases hp : parseMemberAt s with
  | none => rw [hp] at h; cases h
  | some p =>
    obtain ⟨j2, r2, hl⟩ := p
    rw [hp] at h
    simp only [Option.map_some', Option.some.injEq, Prod.mk.injEq] at h
    obtain ⟨hj, hr⟩ := h
    subst hj
    subst hr
    exact ⟨hl, rfl⟩

theorem pmlW_elim {acc kvs : List (String × Json)} {s : List Char} {r : List Char}
    (h : pmlW acc s = some (kvs, r)) :
    ∃ hle : r.length ≤ s.length, parseMembersLoop acc s = some (kvs, ⟨r, hle⟩) := by
  unfold pmlW at h
  cases hp : parseMembersLoop acc s with
  | none => rw [hp] at h; cases h
  | some p =>
    obtain ⟨j2, r2, hl⟩ := p
    rw [hp] at h
    simp only [Option.map_some', Option.some.injEq, Prod.mk.injEq] at h
    obtain ⟨hj, hr⟩ := h
    subst hj
    subst hr
    exact ⟨hl, rfl⟩

theorem ntW_elim {s : List Char} {c : Char} {r : List Char}
    (h : ntW s = some (c, r)) :
    ∃ hlt : r.length < s.length, nextTok s = some (c, ⟨r, hlt⟩) := by
  unfold ntW at h
  cases hp : nextTok s with
  | none => rw [hp] at h; cases h
  | some p =>
    obtain ⟨j2, r2, hl⟩ := p
    rw [hp] at h
    simp only [Option.map_some', Option.some.injEq, Prod.mk.injEq] at h
    obtain ⟨hj, hr⟩ := h
    subst hj
    subst hr
    exact ⟨hl, rfl⟩

theorem ntW_eq {s : List Char} {c : Char} {t : List Char} (h : skipWs s = c :: t) :
    ntW s = some (c, t) := by
  unfold ntW nextTok
  split
  · next h2 => rw [h2] at h; cases h
  · next c2 t2 h2 =>
    rw [h2] at h
    injection h with hc ht
    subst hc
    subst ht
    rfl

theorem skipWs_cons_of_ws {c : Char} (h : isWsChar c = true) (t : List Char) :
    skipWs (c :: t) = skipWs t := by
  simp [skipWs, List.dropWhile_cons, h]

theorem skipWs_cons_of_not_ws {c : Char} (h : isWsChar c = false) (t : List Char) :
    skipWs (c :: t) = c :: t := by
  simp [skipWs, List.dropWhile_cons, h]

theorem skipWs_append_ws {ws : List Char} (h : ∀ c ∈ ws, isWsChar c = true)
    (s : List Char) : skipWs (ws ++ s) = skipWs s := by
  induction ws with
  | nil => rfl
  | cons c t ih =>
    rw [List.cons_append, skipWs_cons_of_ws (h c (by simp))]
    exact ih (fun d hd => h d (by simp [hd]))

theorem ntW_of_head {ws : List Char} (hws : ∀ c ∈ ws, isWsChar c = true)
    {c : Char} (hc : isWsChar c = false) (t : List Char) :
    ntW (ws ++ c :: t) = some (c, t) :=
  ntW_eq (by rw [skipWs_append_ws hws, skipWs_cons_of_not_ws hc])

/-! ## Character and UTF-8 lemmas -/

theorem toNat_ofNat_valid {n : Nat} (h : n.isValidChar) : (Char.ofNat n).toNat = n := by
  rw [Char.ofNat, dif_pos h]
  rfl

theorem char_valid (c : Char) : c.toNat < 1114112 ∧ ¬(55296 ≤ c.toNat ∧ c.toNat < 57344) := by
  have he : c.toNat = c.val.toNat := rfl
  rcases c.valid with h | ⟨h1, h2⟩ <;> constructor <;> omega

theorem nat_isValidChar_of (n : Nat) (h1 : n < 1114112) (h2 : ¬(55296 ≤ n ∧ n < 57344)) :
    n.isValidChar := by
  by_cases h : n < 55296
  · exact Or.inl h
  · exact Or.inr ⟨by omega, h1⟩

theorem utf8EncodeChar_lt_256 (c : Char) : ∀ b ∈ utf8EncodeChar c, b < 256 := by
  obtain ⟨hlt, hsur⟩ := char_valid c
  unfold utf8EncodeChar
  split_ifs with h1 h2 h3 <;> intro b hb <;>
    simp only [List.mem_cons, List.mem_singleton, List.not_mem_nil, or_false] at hb
  · omega
  · rcases hb with rfl | rfl <;> omega
  · rcases hb with rfl | rfl | rfl <;> omega
  · rcases hb with rfl | rfl | rfl | rfl <;> omega

theorem utf8Encode_lt_256 (cs : List Char) : ∀ b ∈ utf8Encode cs, b < 256 := by
  intro b hb
  simp only [utf8Encode, List.mem_flatMap] at hb
  obtain ⟨c, _, hbc⟩ := hb
  exact utf8EncodeChar_lt_256 c b hbc

theorem utf8Decode_ascii (b : Nat) (h : b < 128) (rest : List Nat) :
    utf8Decode (b :: rest) = (utf8Decode rest).map (Char.ofNat b :: ·) := by
  match rest with
  | [] => simp only [utf8Decode, if_pos h]
  | [b1] => simp only [utf8Decode, if_pos h]
  | [b1, b2] => simp only [utf8Decode, if_pos h]
  | b1 :: b2 :: b3 :: rest1 => simp only [utf8Decode, if_pos h]

theorem utf8Decode_twoByte (b b1 : Nat) (hb : ¬ b < 128) (hb2 : ¬ b < 192) (hb3 : b < 224)
    (hok : utf8Ok2 b b1 = true) (rest : List Nat) :
    utf8Decode (b :: b1 :: rest) = (utf8Decode rest).map (Char.ofNat (utf8Val2 b b1) :: ·) := by
  match rest with
  | [] => simp only [utf8Decode, if_neg hb, if_neg hb2, if_pos hb3, if_pos hok]
  | [b2] => simp only [utf8Decode, if_neg hb, if_neg hb2, if_pos hb3, if_pos hok]
  | b2 :: b3 :: rest1 => simp only [utf8Decode, if_neg hb, if_neg hb2, if_pos hb3, if_pos hok]

theorem utf8Decode_threeByte (b b1 b2 : Nat) (hb : ¬ b < 128) (hb2 : ¬ b < 192)
    (hb3 : ¬ b < 224) (hb4 : b < 240) (hok : utf8Ok3 b b1 b2 = true) (rest : List Nat) :
    utf8Decode (b :: b1 :: b2 :: rest) =
      (utf8Decode rest).map (Char.ofNat (utf8Val3 b b1 b2) :: ·) := by
  match rest with
  | [] => simp only [utf8Decode, if_neg hb, if_neg hb2, if_neg hb3, if_pos hb4, if_pos hok]
  | b3 :: rest1 =>
    simp only [utf8Decode, if_neg hb, if_neg hb2, if_neg hb3, if_pos hb4, if_pos hok]

theorem utf8Decode_fourByte (b b1 b2 b3 : Nat) (hb : ¬ b < 128) (hb2 : ¬ b < 192)
    (hb3 : ¬ b < 224) (hb4 : ¬ b < 240) (hb5 : b < 248) (hok : utf8Ok4 b b1 b2 b3 = true)
    (rest : List Nat) :
    utf8Decode (b :: b1 :: b2 :: b3 :: rest) =
      (utf8Decode rest).map (Char.ofNat (utf8Val4 b b1 b2 b3) :: ·) := by
  simp only [utf8Decode, if_neg hb, if_neg hb2, if_neg hb3, if_neg hb4, if_pos hb5, if_pos hok]

theorem utf8Decode_encodeChar (c : Char) (rest : List Nat) :
    utf8Decode (utf8EncodeChar c ++ rest) = (utf8Decode rest).map (c :: ·) := by
  obtain ⟨hlt, hsur⟩ := char_valid c
  unfold utf8EncodeChar
  split_ifs with h1 h2 h3
  · rw [List.singleton_append, utf8Decode_ascii _ h1, Char.ofNat_toNat]
  · have hok : utf8Ok2 (192 + c.toNat / 64) (128 + c.toNat % 64) = true := by
      simp only [utf8Ok2, isCont, utf8Val2, Bool.and_eq_true, decide_eq_true_eq]
      omega
    have hval : utf8Val2 (192 + c.toNat / 64) (128 + c.toNat % 64) = c.toNat := by
      simp only [utf8Val2]
      omega
    rw [List.cons_append, List.singleton_append,
      utf8Decode_twoByte _ _ (by omega) (by omega) (by omega) hok, hval, Char.ofNat_toNat]
  · have hok : utf8Ok3 (224 + c.toNat / 4096) (128 + c.toNat / 64 % 64)
        (128 + c.toNat % 64) = true := by
      simp only [utf8Ok3, isCont, utf8Val3, Bool.and_eq_true, decide_eq_true_eq,
        Bool.not_eq_true', Bool.and_eq_false_iff, decide_eq_false_iff_not]
      refine ⟨⟨⟨⟨by omega, by omega⟩, by omega, by omega⟩, by omega⟩, ?_⟩
      omega
    have hval : utf8Val3 (224 + c.toNat / 4096) (128 + c.toNat / 64 % 64)
        (128 + c.toNat % 64) = c.toNat := by
      simp only [utf8Val3]
      omega
    rw [List.cons_append, List.cons_append, List.singleton_append,
      utf8Decode_threeByte _ _ _ (by omega) (by omega) (by omega) (by omega) hok, hval,
      Char.ofNat_toNat]
  · have hok : utf8Ok4 (240 + c.toNat / 262144) (128 + c.toNat / 4096 % 64)
        (128 + c.toNat / 64 % 64) (128 + c.toNat % 64) = true := by
      simp only [utf8Ok4, isCont, utf8Val4, Bool.and_eq_true, decide_eq_true_eq]
      refine ⟨⟨⟨⟨⟨by omega, by omega⟩, by omega, by omega⟩, by omega, by omega⟩, by omega⟩, ?_⟩
      omega
    have hval : utf8Val4 (240 + c.toNat / 262144) (128 + c.toNat / 4096 % 64)
        (128 + c.toNat / 64 % 64) (128 + c.toNat % 64) = c.toNat := by
      simp only [utf8Val4]
      omega
    rw [List.cons_append, List.cons_append, List.cons_append, List.singleton_append,
      utf8Decode_fourByte _ _ _ _ (by omega) (by omega) (by omega) (by omega) (by omega) hok,
      hval, Char.ofNat_toNat]

theorem utf8Decode_utf8Encode (cs : List Char) : utf8Decode (utf8Encode cs) = some cs := by
  induction cs with
  | nil => rfl
  | cons c t ih =>
    show utf8Decode (utf8EncodeChar c ++ utf8Encode t) = _
    rw [utf8Decode_encodeChar, ih]
    rfl

/-! ## Base64 lemmas -/

theorem b64Char_spec : ∀ n, n < 64 →
    (isB64Char (b64Char n) = true ∧ b64Char n ≠ '=' ∧ b64Val (b64Char n) = n) := by decide

theorem b64encode_mem : ∀ (bs : List Nat), (∀ b ∈ bs, b < 256) →
    ∀ c ∈ b64encode bs, isB64Char c = true ∨ c = '='
  | [], _, c, hc => by simp [b64encode] at hc
  | [b1], h, c, hc => by
    have h1 : b1 < 256 := h b1 (by simp)
    have s1 := b64Char_spec (b1 / 4) (by omega)
    have s2 := b64Char_spec (b1 % 4 * 16) (by omega)
    simp only [b64encode, List.mem_cons, List.not_mem_nil, or_false] at hc
    rcases hc with rfl | rfl | rfl | rfl
    · exact Or.inl s1.1
    · exact Or.inl s2.1
    · exact Or.inr rfl
    · exact Or.inr rfl
  | [b1, b2], h, c, hc => by
    have h1 : b1 < 256 := h b1 (by simp)
    have h2 : b2 < 256 := h b2 (by simp)
    have s1 := b64Char_spec (b1 / 4) (by omega)
    have s2 := b64Char_spec (b1 % 4 * 16 + b2 / 16) (by omega)
    have s3 := b64Char_spec (b2 % 16 * 4) (by omega)
    simp only [b64encode, List.mem_cons, List.not_mem_nil, or_false] at hc
    rcases hc with rfl | rfl | rfl | rfl
    · exact Or.inl s1.1
    · exact Or.inl s2.1
    · exact Or.inl s3.1
    · exact Or.inr rfl
  | b1 :: b2 :: b3 :: rest, h, c, hc => by
    have h1 : b1 < 256 := h b1 (by simp)
    have h2 : b2 < 256 := h b2 (by simp)
    have h3 : b3 < 256 := h b3 (by simp)
    have s1 := b64Char_spec (b1 / 4) (by omega)
    have s2 := b64Char_spec (b1 % 4 * 16 + b2 / 16) (by omega)
    have s3 := b64Char_spec (b2 % 16 * 4 + b3 / 64) (by omega)
    have s4 := b64Char_spec (b3 % 64) (by omega)
    simp only [b64encode, List.mem_cons] at hc
    rcases hc with rfl | rfl | rfl | rfl | hc
    · exact Or.inl s1.1
    · exact Or.inl s2.1
    · exact Or.inl s3.1
    · exact Or.inl s4.1
    · exact b64encode_mem rest (fun b hb => h b (by simp [hb])) c hc

theorem comma_not_mem_b64encode (bs : List Nat) (h : ∀ b ∈ bs, b < 256) :
    ',' ∉ b64encode bs := by
  intro hmem
  rcases b64encode_mem bs h ',' hmem with hc | hc
  · simp [isB64Char] at hc
  · cases hc

theorem b64encode_filter (bs : List Nat) (h : ∀ b ∈ bs, b < 256) :
    (b64encode bs).filter (fun c => isB64Char c || c = '=') = b64encode bs := by
  apply List.filter_eq_self.mpr
  intro c hc
  rcases b64encode_mem bs h c hc with h1 | h1
  · simp [h1]
  · simp [h1]

theorem b64encode_cons_shape : ∀ (bs : List Nat), bs ≠ [] → ∃ c cs, b64encode bs = c :: cs
  | [], hne => absurd rfl hne
  | [b1], _ => ⟨_, _, rfl⟩
  | [b1, b2], _ => ⟨_, _, rfl⟩
  | b1 :: b2 :: b3 :: rest, _ => ⟨_, _, rfl⟩

theorem b64Quads_b64encode : ∀ (bs : List Nat), (∀ b ∈ bs, b < 256) →
    b64Quads (b64encode bs) = some bs
  | [], _ => rfl
  | [b1], h => by
    have h1 : b1 < 256 := h b1 (by simp)
    have s1 := b64Char_spec (b1 / 4) (by omega)
    have s2 := b64Char_spec (b1 % 4 * 16) (by omega)
    show b64Quads [b64Char (b1 / 4), b64Char (b1 % 4 * 16), '=', '='] = some [b1]
    simp only [b64Quads, s1.1, s2.1, Bool.and_self, Bool.true_and, Bool.and_true,
      decide_True, s1.2.2, s2.2.2]
    simp only [if_true, ite_true, Option.some.injEq, List.cons.injEq, and_true]
    omega
  | [b1, b2], h => by
    have h1 : b1 < 256 := h b1 (by simp)
    have h2 : b2 < 256 := h b2 (by simp)
    have s1 := b64Char_spec (b1 / 4) (by omega)
    have s2 := b64Char_spec (b1 % 4 * 16 + b2 / 16) (by omega)
    have s3 := b64Char_spec (b2 % 16 * 4) (by omega)
    have hne : (b64Char (b2 % 16 * 4) = '=') = False := by simp [s3.2.1]
    show b64Quads [b64Char (b1 / 4), b64Char (b1 % 4 * 16 + b2 / 16),
      b64Char (b2 % 16 * 4), '='] = some [b1, b2]
    simp only [b64Quads, s1.1, s2.1, s3.1, hne, Bool.and_self, Bool.true_and, Bool.and_true,
      decide_True, decide_False, Bool.false_and, Bool.and_false, s1.2.2, s2.2.2, s3.2.2]
    simp only [if_true, ite_true, ite_false, if_false, Bool.false_eq_true, if_neg,
      not_false_eq_true, Option.some.injEq, List.cons.injEq, and_true]
    omega
  | b1 :: b2 :: b3 :: rest, h => by
    have h1 : b1 < 256 := h b1 (by simp)
    have h2 : b2 < 256 := h b2 (by simp)
    have h3 : b3 < 256 := h b3 (by simp)
    have s1 := b64Char_spec (b1 / 4) (by omega)
    have s2 := b64Char_spec (b1 % 4 * 16 + b2 / 16) (by omega)
    have s3 := b64Char_spec (b2 % 16 * 4 + b3 / 64) (by omega)
    have s4 := b64Char_spec (b3 % 64) (by omega)
    have hne3 : (b64Char (b2 % 16 * 4 + b3 / 64) = '=') = False := by simp [s3.2.1]
    have hne4 : (b64Char (b3 % 64) = '=') = False := by simp [s4.2.1]
    have ih := b64Quads_b64encode rest (fun b hb => h b (by simp [hb]))
    show b64Quads (b64Char (b1 / 4) :: b64Char (b1 % 4 * 16 + b2 / 16) ::
      b64Char (b2 % 16 * 4 + b3 / 64) :: b64Char (b3 % 64) :: b64encode rest) =
      some (b1 :: b2 :: b3 :: rest)
    cases rest with
    | nil =>
      show b64Quads [b64Char (b1 / 4), b64Char (b1 % 4 * 16 + b2 / 16),
        b64Char (b2 % 16 * 4 + b3 / 64), b64Char (b3 % 64)] = some [b1, b2, b3]
      simp only [b64Quads, s1.1, s2.1, s3.1, s4.1, hne3, hne4, Bool.and_self, Bool.true_and,
        Bool.and_true, decide_True, decide_False, Bool.false_and, Bool.and_false,
        s1.2.2, s2.2.2, s3.2.2, s4.2.2]
      simp only [if_true, ite_true, Bool.false_eq_true, if_false, ite_false,
        Option.some.injEq, List.cons.injEq, and_true]
      omega
    | cons r1 rs =>
      obtain ⟨c5, cs5, hshape⟩ := b64encode_cons_shape (r1 :: rs) (by simp)
      rw [hshape]
      rw [hshape] at ih
      simp only [b64Quads, s1.1, s2.1, s3.1, s4.1, Bool.and_self, Bool.true_and,
        Bool.and_true, ih, Option.map_some', s1.2.2, s2.2.2, s3.2.2, s4.2.2]
      simp only [if_true, ite_true, Option.some.injEq, List.cons.injEq, and_true, and_self]
      omega

theorem b64decode_b64encode (bs : List Nat) (h : ∀ b ∈ bs, b < 256) :
    b64decode (b64encode bs) = some bs := by
  rw [b64decode, b64encode_filter bs h]
  exact b64Quads_b64encode bs h



/-! ## rsplit lemmas

`rsplitGo` finds the last occurrence of the marker; these lemmas let the
round-trip theorems locate the marker the rewriter re-embeds. -/

theorem rsplitGo_eq_none_of_not_infix (m : List Char) : ∀ s, ¬ m <:+: s → rsplitGo m s = none
  | [], _ => rfl
  | c :: t, h => by
    have ht : ¬ m <:+: t := fun hi => h (List.infix_cons hi)
    have hrec := rsplitGo_eq_none_of_not_infix m t ht
    simp only [rsplitGo, hrec]
    rw [if_neg]
    intro hp
    exact h (List.isPrefixOf_iff_prefix.mp hp).isInfix

theorem rsplitGo_prepend (m : List Char) : ∀ (cp s b a : List Char),
    rsplitGo m s = some (b, a) → rsplitGo m (cp ++ s) = some (cp ++ b, a)
  | [], _, _, _, h => by simpa using h
  | c :: cp2, s, b, a, h => by
    have ih := rsplitGo_prepend m cp2 s b a h
    show rsplitGo m (c :: (cp2 ++ s)) = _
    simp only [rsplitGo, ih, List.cons_append]

theorem marker_not_infix_tail (m1 : List Char) (x c : Char) (mt nb : List Char)
    (hm : c :: mt = m1 ++ [x]) (hx : x ∉ nb) : ¬ (c :: mt) <:+: (mt ++ nb) := by
  rintro ⟨a, b, hab⟩
  rw [hm] at hab
  have hlen : m1.length = mt.length := by
    have := congrArg List.length hm
    simp at this
    omega
  have h1 : ((a ++ m1) ++ (x :: b)).drop (a ++ m1).length = x :: b := List.drop_left _ _
  have h2 : a ++ (m1 ++ [x]) ++ b = (a ++ m1) ++ (x :: b) := by
    simp
  rw [h2] at hab
  have h3 : (mt ++ nb).drop (mt.length + a.length) = nb.drop a.length := by
    rw [List.drop_append]
  have h4 : (a ++ m1).length = mt.length + a.length := by
    simp [hlen]
    omega
  have h5 : x :: b = nb.drop a.length := by
    rw [← h1, hab, h4, h3]
  exact hx (List.drop_subset _ _ (by rw [← h5]; exact List.mem_cons_self x b))

theorem rsplitGo_marker (m m1 : List Char) (x : Char) (nb : List Char)
    (hm : m = m1 ++ [x]) (hx : x ∉ nb) :
    rsplitGo m (m ++ nb) = some ([], nb) := by
  cases hm2 : m with
  | nil => rw [hm2] at hm; exact absurd hm.symm (by simp)
  | cons c mt =>
    rw [hm2] at hm
    have hni : ¬ (c :: mt) <:+: (mt ++ nb) := marker_not_infix_tail m1 x c mt nb hm hx
    show rsplitGo (c :: mt) ((c :: mt) ++ nb) = _
    show rsplitGo (c :: mt) (c :: (mt ++ nb)) = _
    simp only [rsplitGo, rsplitGo_eq_none_of_not_infix (c :: mt) _ hni]
    rw [if_pos (List.isPrefixOf_iff_prefix.mpr ⟨nb, by simp⟩)]
    simp

/-- Substring containment agrees with `List.IsInfix`; the bridge from the
`marker not in js_code` test to `rsplitGo`. -/
theorem hasInfix_iff (pat : List Char) : ∀ s, hasInfix pat s = true ↔ pat <:+: s
  | [] => by
    simp only [hasInfix, List.isEmpty_iff]
    constructor
    · intro h; rw [h]
    · intro h; exact List.eq_nil_of_infix_nil h
  | c :: t => by
    simp only [hasInfix, Bool.or_eq_true, List.isPrefixOf_iff_prefix,
      hasInfix_iff pat t, List.infix_cons_iff]

/-! ## C6: failure passthrough of the source-map rewriter -/

/-- C6: for every input code string, `_rewrite_source_map_sources` returns
the input unchanged (raising nothing) whenever the inline source-map marker
is absent, or the base64 payload fails to decode (including to invalid
UTF-8), or the decoded payload is not valid JSON. -/
theorem rewrite_failure_passthrough (code componentName : String) :
    (hasInfix smMarker.data code.data = false →
      rewriteSourceMapSources code componentName = .ok code) ∧
    (∀ cp b64, rsplitGo smMarker.data code.data = some (cp, b64) →
      (b64decode b64).bind utf8Decode = none →
      rewriteSourceMapSources code componentName = .ok code) ∧
    (∀ cp b64 chars, rsplitGo smMarker.data code.data = some (cp, b64) →
      (b64decode b64).bind utf8Decode = some chars → parseJson chars = none →
      rewriteSourceMapSources code componentName = .ok code) := by
  refine ⟨?_, ?_, ?_⟩
  · intro h
    have hni : ¬ smMarker.data <:+: code.data := by
      rw [← hasInfix_iff]
      simp [h]
    simp only [rewriteSourceMapSources, rsplitGo_eq_none_of_not_infix _ _ hni]
  · intro cp b64 hr hd
    simp only [rewriteSourceMapSources, hr, hd]
  · intro cp b64 chars hr hd hp
    simp only [rewriteSourceMapSources, hr, hd, hp]

theorem rewrite_failure_passthrough_witness :
    rewriteSourceMapSources "abc" "x" = .ok "abc" ∧
    rewriteSourceMapSources (smMarker ++ "AAA") "x" = .ok (smMarker ++ "AAA") ∧
    rewriteSourceMapSources (smMarker ++ "QA==") "x" = .ok (smMarker ++ "QA==") :=
  ⟨(rewrite_failure_passthrough "abc" "x").1 (by decide),
   (rewrite_failure_passthrough (smMarker ++ "AAA") "x").2.1 [] "AAA".data rfl rfl,
   (rewrite_failure_passthrough (smMarker ++ "QA==") "x").2.2 [] "QA==".data ['@'] rfl rfl
     (by
       have h : nextTok ['@'] = some ('@', ⟨[], by simp⟩) := rfl
       rw [parseJson, parseValue, h]
       simp only [Char.reduceEq, reduceIte, qChar, lbChar, isDigitChar]
       rw [if_neg (by decide)])⟩

/-! ## Number round-trip: `parseNat` inverts `natChars` -/

/-- A list that does not begin with a decimal digit. -/
def nonDigitStart : List Char → Bool
  | [] => true
  | c :: _ => !isDigitChar c

/-- Value accumulated by the digit scanner over a digit run. -/
def digitsVal (acc : Nat) (ds : List Char) : Nat :=
  ds.foldl (fun a c => a * 10 + (c.toNat - 48)) acc

theorem parseDigitsAcc_spec : ∀ (ds : List Char), (∀ c ∈ ds, isDigitChar c = true) →
    ∀ (rest : List Char), nonDigitStart rest = true → ∀ (acc : Nat),
    parseDigitsAcc acc (ds ++ rest) = (digitsVal acc ds, ⟨rest, by simp⟩)
  | [], hds, rest, hrest, acc => by
    cases rest with
    | nil => rfl
    | cons c t =>
      have hc : isDigitChar c = false := by simpa [nonDigitStart] using hrest
      simp [parseDigitsAcc, hc, digitsVal]
  | d :: ds2, hds, rest, hrest, acc => by
    have hd : isDigitChar d = true := hds d (by simp)
    have hrec := parseDigitsAcc_spec ds2 (fun c hc => hds c (by simp [hc])) rest hrest
      (acc * 10 + (d.toNat - 48))
    simp only [List.cons_append, parseDigitsAcc, hd, if_true, List.append_eq, hrec]
    simp [digitsVal]

theorem natChars_digits (n : Nat) : ∀ c ∈ natChars n, isDigitChar c = true := by
  induction n using Nat.strong_induction_on with
  | _ n ih =>
    rw [natChars]
    split
    · next h =>
      intro c hc
      simp only [List.mem_singleton] at hc
      subst hc
      have hv : (48 + n).isValidChar := Or.inl (by omega)
      simp only [isDigitChar, toNat_ofNat_valid hv, Bool.and_eq_true, decide_eq_true_eq]
      omega
    · next h =>
      intro c hc
      rw [List.mem_append] at hc
      rcases hc with hc | hc
      · exact ih (n / 10) (Nat.div_lt_self (by omega) (by omega)) c hc
      · simp only [List.mem_singleton] at hc
        subst hc
        have hv : (48 + n % 10).isValidChar := Or.inl (by omega)
        simp only [isDigitChar, toNat_ofNat_valid hv, Bool.and_eq_true, decide_eq_true_eq]
        omega

theorem natChars_shape (n : Nat) : ∃ c t, natChars n = c :: t ∧ 48 ≤ c.toNat ∧
    c.toNat ≤ 57 ∧ (c.toNat = 48 ↔ n = 0) := by
  induction n using Nat.strong_induction_on with
  | _ n ih =>
    rw [natChars]
    split
    · next h =>
      have hv : (48 + n).isValidChar := Or.inl (by omega)
      refine ⟨Char.ofNat (48 + n), [], rfl, ?_, ?_, ?_⟩ <;> rw [toNat_ofNat_valid hv] <;> omega
    · next h =>
      obtain ⟨c, t, hct, h48, h57, hz⟩ := ih (n / 10) (Nat.div_lt_self (by omega) (by omega))
      refine ⟨c, t ++ [Char.ofNat (48 + n % 10)], by rw [hct]; simp, h48, h57, ?_⟩
      rw [hz]
      omega

theorem digitsVal_natChars (n : Nat) : ∀ acc,
    digitsVal acc (natChars n) = acc * 10 ^ (natChars n).length + n := by
  induction n using Nat.strong_induction_on with
  | _ n ih =>
    intro acc
    rw [natChars]
    split
    · next h =>
      have hv : (48 + n).isValidChar := Or.inl (by omega)
      simp only [digitsVal, List.foldl_cons, List.foldl_nil, List.length_singleton, pow_one,
        toNat_ofNat_valid hv]
      omega
    · next h =>
      have hrec := ih (n / 10) (Nat.div_lt_self (by omega) (by omega)) acc
      have hv : (48 + n % 10).isValidChar := Or.inl (by omega)
      simp only [digitsVal, List.foldl_append, List.foldl_cons, List.foldl_nil,
        List.length_append, List.length_cons, List.length_nil]
      rw [show (List.foldl (fun a c => a * 10 + (c.toNat - 48)) acc (natChars (n / 10))) =
        digitsVal acc (natChars (n / 10)) from rfl, hrec, toNat_ofNat_valid hv]
      have hp : 10 ^ ((natChars (n / 10)).length + (0 + 1)) =
          10 ^ (natChars (n / 10)).length * 10 := by ring
      rw [hp]
      have hq : acc * (10 ^ (natChars (n / 10)).length * 10) =
          acc * 10 ^ (natChars (n / 10)).length * 10 := by ring
      have hdm := Nat.div_add_mod n 10
      have hm : n % 10 < 10 := Nat.mod_lt _ (by omega)
      omega

theorem pnW_natChars (n : Nat) (rest : List Char) (hrest : nonDigitStart rest = true) :
    pnW (natChars n ++ rest) = some (n, rest) := by
  by_cases hn : n = 0
  · subst hn
    have h0 : natChars 0 = ['0'] := by rw [natChars]; simp
    rw [h0]
    simp [pnW, parseNat]
  · obtain ⟨c, t, hct, h48, h57, hz⟩ := natChars_shape n
    have hc0 : ¬ c = '0' := by
      intro h
      exact hn (hz.mp (by rw [h]; rfl))
    have hdt : ∀ d ∈ t, isDigitChar d = true := by
      intro d hd
      exact natChars_digits n d (by rw [hct]; simp [hd])
    have hc0n : c.toNat ≠ 48 := fun h => hn (hz.mp h)
    have hspec := parseDigitsAcc_spec t hdt rest hrest (c.toNat - 48)
    rw [hct, List.cons_append]
    simp only [pnW, parseNat, hc0, if_false, ite_false]
    rw [if_pos (by omega)]
    simp only [hspec, Option.map_some']
    have hval : digitsVal (c.toNat - 48) t = n := by
      have h1 : digitsVal 0 (natChars n) = n := by
        rw [digitsVal_natChars n 0]
        omega
      rw [hct] at h1
      simpa [digitsVal] using h1
    rw [hval]

/-! ## String round-trip: `parseStringBody` inverts `escChar` -/


theorem hexVal_hexChar : ∀ m, m < 16 → hexVal (hexChar m) = some m := by decide

theorem ofNat_toNat (c : Char) : Char.ofNat c.toNat = c := by
  apply Char.ext
  exact UInt32.ext (toNat_ofNat_valid (nat_isValidChar_of c.toNat (char_valid c).1 (char_valid c).2))

theorem hex4Val_hex4 (n : Nat) (hn : n < 65536) :
    hex4Val (hexChar (n / 4096 % 16)) (hexChar (n / 256 % 16)) (hexChar (n / 16 % 16))
      (hexChar (n % 16)) = some n := by
  rw [hex4Val, hexVal_hexChar _ (by omega), hexVal_hexChar _ (by omega),
    hexVal_hexChar _ (by omega), hexVal_hexChar _ (by omega)]
  simp only [Option.some.injEq]
  omega

set_option maxHeartbeats 1000000 in
theorem psbW_close (rest : List Char) : psbW (qChar :: rest) = some ([], rest) := by
  unfold psbW
  rw [parseStringBody.eq_def]
  simp

theorem psbW_esc_step (e ec : Char) (he : simpleEsc e = some ec) (hne : ¬ e = 'u')
    (tail cs rest : List Char) (hrec : psbW tail = some (cs, rest)) :
    psbW (bsChar :: e :: tail) = some (ec :: cs, rest) := by
  obtain ⟨hlt, hp⟩ := psbW_elim hrec
  unfold psbW
  rw [parseStringBody.eq_def]
  simp only [show ¬ bsChar = qChar by decide, if_false, ite_false, if_pos rfl, hne,
    he, hp, Option.map_some', if_true, ite_true]

theorem psbW_plain_step (c : Char) (h1 : ¬ c = qChar) (h2 : ¬ c = bsChar)
    (h3 : ¬ c.toNat < 32) (tail cs rest : List Char) (hrec : psbW tail = some (cs, rest)) :
    psbW (c :: tail) = some (c :: cs, rest) := by
  obtain ⟨hlt, hp⟩ := psbW_elim hrec
  unfold psbW
  rw [parseStringBody.eq_def]
  simp only [h1, h2, h3, if_false, ite_false, hp, Option.map_some']

theorem psbW_u_gen (h1 h2 h3 h4 : Char) (n : Nat) (hhex : hex4Val h1 h2 h3 h4 = some n)
    (hs : ¬(55296 ≤ n ∧ n < 57344))
    (tail cs rest : List Char) (hrec : psbW tail = some (cs, rest)) :
    psbW (bsChar :: 'u' :: h1 :: h2 :: h3 :: h4 :: tail) = some (Char.ofNat n :: cs, rest) := by
  obtain ⟨hlt, hp⟩ := psbW_elim hrec
  unfold psbW
  rw [parseStringBody.eq_def]
  simp only [show ¬ bsChar = qChar by decide, if_false, ite_false, if_pos rfl, if_true, ite_true,
    hhex]
  rw [if_neg (by omega), if_neg (by omega)]
  simp only [hp, Option.map_some']

theorem psbW_sur_gen (h1 h2 h3 h4 g1 g2 g3 g4 : Char) (n m : Nat)
    (hn : hex4Val h1 h2 h3 h4 = some n) (hm : hex4Val g1 g2 g3 g4 = some m)
    (hsn : 55296 ≤ n ∧ n < 56320) (hsm : 56320 ≤ m ∧ m < 57344)
    (tail cs rest : List Char) (hrec : psbW tail = some (cs, rest)) :
    psbW (bsChar :: 'u' :: h1 :: h2 :: h3 :: h4 :: bsChar :: 'u' :: g1 :: g2 :: g3 :: g4 :: tail) =
    some (Char.ofNat (65536 + (n - 55296) * 1024 + (m - 56320)) :: cs, rest) := by
  obtain ⟨hlt, hp⟩ := psbW_elim hrec
  unfold psbW
  rw [parseStringBody.eq_def]
  simp only [show ¬ bsChar = qChar by decide, if_false, ite_false, if_pos rfl, if_true, ite_true,
    hn]
  rw [if_pos hsn, parseLowSur, if_pos ⟨rfl, rfl⟩, hm]
  simp only []
  rw [if_pos hsm]
  simp only [hp, Option.map_some']

theorem psbW_dumps : ∀ (cs rest : List Char),
    psbW (cs.flatMap escChar ++ qChar :: rest) = some (cs, rest)
  | [], rest => by
    simpa only [List.flatMap_nil, List.nil_append] using psbW_close rest
  | c :: cs, rest => by
    have ih := psbW_dumps cs rest
    simp only [List.flatMap_cons, List.append_assoc]
    by_cases h1 : c = Char.ofNat 34
    · subst h1
      rw [show escChar (Char.ofNat 34) = [Char.ofNat 92, Char.ofNat 34] from rfl]
      simp only [List.cons_append, List.nil_append]
      exact psbW_esc_step (Char.ofNat 34) (Char.ofNat 34) (by decide) (by decide) _ cs rest ih
    · by_cases h2 : c = Char.ofNat 92
      · subst h2
        rw [show escChar (Char.ofNat 92) = [Char.ofNat 92, Char.ofNat 92] from rfl]
        simp only [List.cons_append, List.nil_append]
        exact psbW_esc_step (Char.ofNat 92) (Char.ofNat 92) (by decide) (by decide) _ cs rest ih
      · by_cases h3 : c = Char.ofNat 10
        · subst h3
          rw [show escChar (Char.ofNat 10) = [Char.ofNat 92, 'n'] from rfl]
          simp only [List.cons_append, List.nil_append]
          exact psbW_esc_step 'n' (Char.ofNat 10) (by decide) (by decide) _ cs rest ih
        · by_cases h4 : c = Char.ofNat 13
          · subst h4
            rw [show escChar (Char.ofNat 13) = [Char.ofNat 92, 'r'] from rfl]
            simp only [List.cons_append, List.nil_append]
            exact psbW_esc_step 'r' (Char.ofNat 13) (by decide) (by decide) _ cs rest ih
          · by_cases h5 : c = Char.ofNat 9
            · subst h5
              rw [show escChar (Char.ofNat 9) = [Char.ofNat 92, 't'] from rfl]
              simp only [List.cons_append, List.nil_append]
              exact psbW_esc_step 't' (Char.ofNat 9) (by decide) (by decide) _ cs rest ih
            · by_cases h6 : c = Char.ofNat 8
              · subst h6
                rw [show escChar (Char.ofNat 8) = [Char.ofNat 92, 'b'] from rfl]
                simp only [List.cons_append, List.nil_append]
                exact psbW_esc_step 'b' (Char.ofNat 8) (by decide) (by decide) _ cs rest ih
              · by_cases h7 : c = Char.ofNat 12
                · subst h7
                  rw [show escChar (Char.ofNat 12) = [Char.ofNat 92, 'f'] from rfl]
                  simp only [List.cons_append, List.nil_append]
                  exact psbW_esc_step 'f' (Char.ofNat 12) (by decide) (by decide) _ cs rest ih
                · by_cases h8 : 32 ≤ c.toNat ∧ c.toNat ≤ 126
                  · rw [show escChar c = [c] by
                      simp only [escChar, if_neg h1, if_neg h2, if_neg h3, if_neg h4, if_neg h5,
                        if_neg h6, if_neg h7, if_pos h8]]
                    simp only [List.cons_append, List.nil_append]
                    refine psbW_plain_step c h1 h2 (by omega) _ cs rest ih
                  · by_cases h9 : c.toNat < 65536
                    · rw [show escChar c = Char.ofNat 92 :: 'u' :: hex4 c.toNat by
                        simp only [escChar, if_neg h1, if_neg h2, if_neg h3, if_neg h4, if_neg h5,
                          if_neg h6, if_neg h7, if_neg h8, if_pos h9]]
                      simp only [hex4, List.cons_append, List.nil_append]
                      have hres := psbW_u_gen _ _ _ _ c.toNat (hex4Val_hex4 c.toNat h9)
                        (char_valid c).2 _ cs rest ih
                      rw [ofNat_toNat c] at hres
                      exact hres
                    · rw [show escChar c = Char.ofNat 92 :: 'u' :: hex4 (55296 + (c.toNat - 65536) / 1024) ++
                          (Char.ofNat 92 :: 'u' :: hex4 (56320 + (c.toNat - 65536) % 1024)) by
                        simp only [escChar, if_neg h1, if_neg h2, if_neg h3, if_neg h4, if_neg h5,
                          if_neg h6, if_neg h7, if_neg h8, if_neg h9]]
                      have hcv := char_valid c
                      have hmlt : (c.toNat - 65536) % 1024 < 1024 :=
                        Nat.mod_lt _ (by omega)
                      simp only [hex4, List.cons_append, List.nil_append, List.append_assoc]
                      have hres := psbW_sur_gen _ _ _ _ _ _ _ _
                        (55296 + (c.toNat - 65536) / 1024) (56320 + (c.toNat - 65536) % 1024)
                        (hex4Val_hex4 _ (by omega)) (hex4Val_hex4 _ (by omega))
                        ⟨by omega, by omega⟩ ⟨by omega, by omega⟩ _ cs rest ih
                      have harg : 65536 + (55296 + (c.toNat - 65536) / 1024 - 55296) * 1024 +
                          (56320 + (c.toNat - 65536) % 1024 - 56320) = c.toNat := by
                        have hd := Nat.div_add_mod (c.toNat - 65536) 1024
                        omega
                      rw [harg, ofNat_toNat c] at hres
                      exact hres

/-! ## Well-formed JSON values and dumps-head facts -/


mutual
/-- Structural well-formedness of JSON values: object key lists are
duplicate-free at every level — the invariant the parser's dict building
guarantees, and the condition under which `json.dumps` output parses back
to the same value. -/
def wfb : Json → Bool
  | .null => true
  | .bool _ => true
  | .num _ => true
  | .str _ => true
  | .arr xs => wfbList xs
  | .obj kvs => wfbMembers kvs

/-- `wfb` at every element of an array. -/
def wfbList : List Json → Bool
  | [] => true
  | x :: xs => wfb x && wfbList xs

/-- `wfb` at every member value, with each key fresh in its tail. -/
def wfbMembers : List (String × Json) → Bool
  | [] => true
  | (k, v) :: kvs => (dictLookup kvs k).isNone && wfb v && wfbMembers kvs
end

theorem char_ne_of_toNat (c d : Char) (h : c.toNat ≠ d.toNat) : ¬ c = d :=
  fun he => h (congrArg Char.toNat he)

theorem digit_not_special (c : Char) (h48 : 48 ≤ c.toNat) (h57 : c.toNat ≤ 57) :
    isWsChar c = false ∧ ¬ c = ']' ∧ ¬ c = rbChar := by
  have h1 : ¬ c = ' ' :=
    char_ne_of_toNat c ' ' (by rw [show (' ' : Char).toNat = 32 from rfl]; omega)
  have h2 : ¬ c = Char.ofNat 9 :=
    char_ne_of_toNat c _ (by rw [show (Char.ofNat 9).toNat = 9 from rfl]; omega)
  have h3 : ¬ c = Char.ofNat 10 :=
    char_ne_of_toNat c _ (by rw [show (Char.ofNat 10).toNat = 10 from rfl]; omega)
  have h4 : ¬ c = Char.ofNat 13 :=
    char_ne_of_toNat c _ (by rw [show (Char.ofNat 13).toNat = 13 from rfl]; omega)
  have h5 : ¬ c = ']' :=
    char_ne_of_toNat c _ (by rw [show (']' : Char).toNat = 93 from rfl]; omega)
  have h6 : ¬ c = rbChar :=
    char_ne_of_toNat c _ (by rw [show rbChar.toNat = 125 from rfl]; omega)
  exact ⟨by simp [isWsChar, h1, h2, h3, h4], h5, h6⟩

theorem dumpsVal_head (j : Json) : ∃ c t, dumpsVal j = c :: t ∧ isWsChar c = false ∧
    ¬ c = ']' ∧ ¬ c = rbChar := by
  cases j with
  | null => exact ⟨'n', ['u', 'l', 'l'], by simp only [dumpsVal], by decide, by decide, by decide⟩
  | bool b =>
    cases b
    · exact ⟨'f', ['a', 'l', 's', 'e'], by simp [dumpsVal], by decide, by decide, by decide⟩
    · exact ⟨'t', ['r', 'u', 'e'], by simp [dumpsVal], by decide, by decide, by decide⟩
  | num i =>
    by_cases hi : i < 0
    · exact ⟨'-', natChars (-i).toNat, by simp only [dumpsVal, intChars, if_pos hi],
        by decide, by decide, by decide⟩
    · obtain ⟨c, t, hct, h48, h57, hz⟩ := natChars_shape i.toNat
      obtain ⟨hw, h5, h6⟩ := digit_not_special c h48 h57
      exact ⟨c, t, by simp only [dumpsVal, intChars, if_neg hi, hct], hw, h5, h6⟩
  | str s =>
    exact ⟨qChar, s.data.flatMap escChar ++ [qChar],
      by simp only [dumpsVal, strChars, List.cons_append]; rfl, by decide, by decide, by decide⟩
  | arr xs =>
    cases xs with
    | nil => exact ⟨'[', [']'], by simp only [dumpsVal], by decide, by decide, by decide⟩
    | cons x t =>
      exact ⟨'[', dumpsVal x ++ (dumpsItems t ++ [']']),
        by simp only [dumpsVal, List.cons_append, List.append_assoc],
        by decide, by decide, by decide⟩
  | obj kvs =>
    cases kvs with
    | nil => exact ⟨lbChar, [rbChar], by simp only [dumpsVal]; rfl, by decide, by decide,
        by decide⟩
    | cons kv t =>
      obtain ⟨k, v⟩ := kv
      exact ⟨lbChar, qChar :: (k.data.flatMap escChar ++
          (qChar :: (':' :: ' ' :: (dumpsVal v ++ (dumpsMembers t ++ [rbChar]))))),
        by simp only [dumpsVal, strChars, List.cons_append, List.append_assoc]; rfl,
        by decide, by decide, by decide⟩

theorem nonDigitStart_items (xs : List Json) (rest : List Char) :
    nonDigitStart (dumpsItems xs ++ ']' :: rest) = true := by
  cases xs with
  | nil => simp only [dumpsItems, List.nil_append]; rfl
  | cons x t => simp only [dumpsItems, List.cons_append]; rfl

theorem nonDigitStart_members (kvs : List (String × Json)) (rest : List Char) :
    nonDigitStart (dumpsMembers kvs ++ rbChar :: rest) = true := by
  cases kvs with
  | nil => simp only [dumpsMembers, List.nil_append]; rfl
  | cons kv t =>
    obtain ⟨k, v⟩ := kv
    simp only [dumpsMembers, List.cons_append]
    rfl

theorem dictInsert_append_fresh {β : Type} (m : List (String × β)) (k : String) (v : β)
    (h : dictLookup m k = none) : dictInsert m k v = m ++ [(k, v)] := by
  induction m with
  | nil => rfl
  | cons p t ih =>
    obtain ⟨k1, v1⟩ := p
    simp only [dictLookup] at h
    by_cases h1 : k1 = k
    · rw [if_pos h1] at h
      cases h
    · rw [if_neg h1] at h
      simp only [dictInsert, if_neg h1, List.cons_append, List.cons.injEq, true_and]
      exact ih h

theorem dictLookup_append_fresh {β : Type} (m : List (String × β)) (k : String) (v : β)
    (n : String) (hn : ¬ k = n) (h : dictLookup m n = none) :
    dictLookup (m ++ [(k, v)]) n = none := by
  induction m with
  | nil => simp [dictLookup, hn]
  | cons p t ih =>
    obtain ⟨k1, v1⟩ := p
    simp only [dictLookup] at h ⊢
    by_cases h1 : k1 = n
    · rw [if_pos h1] at h
      cases h
    · rw [if_neg h1] at h ⊢
      exact ih h

theorem wfbMembers_dictInsert (kvs : List (String × Json)) (k : String) (v : Json)
    (hw : wfbMembers kvs = true) (hv : wfb v = true) :
    wfbMembers (dictInsert kvs k v) = true := by
  induction kvs with
  | nil => simp [dictInsert, wfbMembers, dictLookup, hv]
  | cons p t ih =>
    obtain ⟨k1, v1⟩ := p
    simp only [wfbMembers, Bool.and_eq_true] at hw
    obtain ⟨⟨hn, hv1⟩, ht⟩ := hw
    by_cases h1 : k1 = k
    · subst h1
      simp only [dictInsert, if_pos rfl, wfbMembers, Bool.and_eq_true]
      exact ⟨⟨hn, hv⟩, ht⟩
    · simp only [dictInsert, if_neg h1, wfbMembers, Bool.and_eq_true]
      refine ⟨⟨?_, hv1⟩, ih ht⟩
      rw [dictLookup_dictInsert]
      rw [if_neg (fun hh => h1 hh.symm)]
      exact hn

theorem wfbList_map_str (l : List String) (f : String → String) :
    wfbList (l.map fun s => Json.str (f s)) = true := by
  induction l with
  | nil => rfl
  | cons s t ih => simp [wfbList, wfb, ih]

/-! ## Value round-trip: atoms -/

/-- Round-trip property of one JSON value: its `dumps` rendering parses
back to exactly it, from behind any whitespace and before any non-digit
continuation. -/
def ValRT (j : Json) : Prop :=
  ∀ ws rest : List Char, (∀ c ∈ ws, isWsChar c = true) → nonDigitStart rest = true →
    wfb j = true → pvW (ws ++ (dumpsVal j ++ rest)) = some (j, rest)

theorem pvW_dumps_null (ws rest : List Char) (hws : ∀ c ∈ ws, isWsChar c = true) :
    pvW (ws ++ (dumpsVal .null ++ rest)) = some (.null, rest) := by
  simp only [dumpsVal, List.cons_append, List.nil_append]
  obtain ⟨hl1, hnt2⟩ := ntW_elim (ntW_of_head hws (show isWsChar 'n' = false by decide)
    ('u' :: 'l' :: 'l' :: rest))
  unfold pvW
  rw [parseValue, hnt2]
  simp

theorem pvW_dumps_bool (b : Bool) (ws rest : List Char) (hws : ∀ c ∈ ws, isWsChar c = true) :
    pvW (ws ++ (dumpsVal (.bool b) ++ rest)) = some (.bool b, rest) := by
  cases b
  · simp only [dumpsVal, Bool.false_eq_true, if_false, ite_false, List.cons_append,
      List.nil_append]
    obtain ⟨hl1, hnt2⟩ := ntW_elim (ntW_of_head hws (show isWsChar 'f' = false by decide)
      ('a' :: 'l' :: 's' :: 'e' :: rest))
    unfold pvW
    rw [parseValue, hnt2]
    simp
  · simp only [dumpsVal, if_true, ite_true, List.cons_append, List.nil_append]
    obtain ⟨hl1, hnt2⟩ := ntW_elim (ntW_of_head hws (show isWsChar 't' = false by decide)
      ('r' :: 'u' :: 'e' :: rest))
    unfold pvW
    rw [parseValue, hnt2]
    simp

theorem pvW_dumps_arrnil (ws rest : List Char) (hws : ∀ c ∈ ws, isWsChar c = true) :
    pvW (ws ++ (dumpsVal (.arr []) ++ rest)) = some (.arr [], rest) := by
  simp only [dumpsVal, List.cons_append, List.nil_append]
  obtain ⟨hl1, hnt2⟩ := ntW_elim (ntW_of_head hws (show isWsChar '[' = false by decide)
    (']' :: rest))
  obtain ⟨hl2, hnt4⟩ := ntW_elim (ntW_eq
    (skipWs_cons_of_not_ws (show isWsChar ']' = false by decide) rest))
  unfold pvW
  rw [parseValue, hnt2]
  simp only []
  rw [if_neg (by decide), if_neg (by decide), if_neg (by decide), if_neg (by decide),
    if_pos trivial, hnt4]
  simp

theorem pvW_dumps_objnil (ws rest : List Char) (hws : ∀ c ∈ ws, isWsChar c = true) :
    pvW (ws ++ (dumpsVal (.obj []) ++ rest)) = some (.obj [], rest) := by
  simp only [dumpsVal, List.cons_append, List.nil_append]
  rw [show Char.ofNat 123 = lbChar from rfl, show Char.ofNat 125 = rbChar from rfl]
  obtain ⟨hl1, hnt2⟩ := ntW_elim (ntW_of_head hws (show isWsChar lbChar = false by decide)
    (rbChar :: rest))
  obtain ⟨hl2, hnt4⟩ := ntW_elim (ntW_eq
    (skipWs_cons_of_not_ws (show isWsChar rbChar = false by decide) rest))
  unfold pvW
  rw [parseValue, hnt2]
  simp only []
  rw [if_neg (by decide), if_neg (by decide), if_neg (by decide), if_neg (by decide),
    if_neg (by decide), if_pos trivial, hnt4]
  simp

theorem pvW_dumps_str (s : String) (ws rest : List Char)
    (hws : ∀ c ∈ ws, isWsChar c = true) :
    pvW (ws ++ (dumpsVal (.str s) ++ rest)) = some (.str s, rest) := by
  obtain ⟨sd⟩ := s
  simp only [dumpsVal, strChars, List.cons_append, List.nil_append, List.append_assoc]
  rw [show Char.ofNat 34 = qChar from rfl]
  obtain ⟨hl1, hnt2⟩ := ntW_elim (ntW_of_head hws (show isWsChar qChar = false by decide)
    (sd.flatMap escChar ++ (qChar :: rest)))
  obtain ⟨hl2, hsb2⟩ := psbW_elim (psbW_dumps sd rest)
  unfold pvW
  rw [parseValue, hnt2]
  simp only []
  rw [if_neg (by decide), if_neg (by decide), if_neg (by decide), if_pos trivial, hsb2]
  simp

theorem pvW_dumps_num (i : Int) (ws rest : List Char) (hws : ∀ c ∈ ws, isWsChar c = true)
    (hrest : nonDigitStart rest = true) :
    pvW (ws ++ (dumpsVal (.num i) ++ rest)) = some (.num i, rest) := by
  by_cases hi : i < 0
  · simp only [dumpsVal, intChars, if_pos hi, List.cons_append]
    obtain ⟨hl1, hnt2⟩ := ntW_elim (ntW_of_head hws (show isWsChar '-' = false by decide)
      (natChars (-i).toNat ++ rest))
    obtain ⟨hl2, hn2⟩ := pnW_elim (pnW_natChars (-i).toNat rest hrest)
    unfold pvW
    rw [parseValue, hnt2]
    simp only []
    rw [if_neg (by decide), if_neg (by decide), if_neg (by decide), if_neg (by decide),
      if_neg (by decide), if_neg (by decide), if_pos trivial, hn2]
    simp only [Option.map_some', Option.some.injEq, Prod.mk.injEq, Json.num.injEq]
    exact ⟨by omega, trivial⟩
  · obtain ⟨c, t, hct, h48, h57, hz⟩ := natChars_shape i.toNat
    have hd : isDigitChar c = true := by simp only [isDigitChar]; simp; omega
    obtain ⟨hwc, hr1, hr2⟩ := digit_not_special c h48 h57
    simp only [dumpsVal, intChars, if_neg hi, hct, List.cons_append]
    obtain ⟨hl1, hnt2⟩ := ntW_elim (ntW_of_head hws hwc (t ++ rest))
    have hn := pnW_natChars i.toNat rest hrest
    rw [hct, List.cons_append] at hn
    obtain ⟨hl2, hn2⟩ := pnW_elim hn
    unfold pvW
    rw [parseValue, hnt2]
    simp only []
    have hnc : ∀ d : Char, isDigitChar d = false → ¬ c = d := by
      intro d hdf h
      rw [h, hdf] at hd
      cases hd
    rw [if_neg (hnc 'n' (by decide)), if_neg (hnc 't' (by decide)),
      if_neg (hnc 'f' (by decide)), if_neg (hnc qChar (by decide)),
      if_neg (hnc '[' (by decide)), if_neg (hnc lbChar (by decide)),
      if_neg (hnc '-' (by decide)), if_pos hd]
    rw [hn2]
    simp only [Option.map_some', Option.some.injEq, Prod.mk.injEq, Json.num.injEq]
    exact ⟨by omega, trivial⟩

/-! ## Value round-trip: members and loops -/


theorem pmW_dumps_of (k : String) (v : Json) (hv : ValRT v)
    (ws rest : List Char) (hws : ∀ c ∈ ws, isWsChar c = true)
    (hrest : nonDigitStart rest = true) (hwf : wfb v = true) :
    pmW (ws ++ (strChars k ++ (':' :: ' ' :: (dumpsVal v ++ rest)))) = some ((k, v), rest) := by
  obtain ⟨kd⟩ := k
  have hgoal : ws ++ (strChars (String.mk kd) ++ (':' :: ' ' :: (dumpsVal v ++ rest))) =
      ws ++ qChar :: (kd.flatMap escChar ++ qChar :: (':' :: ' ' :: (dumpsVal v ++ rest))) := by
    simp only [strChars, List.cons_append, List.nil_append, List.append_assoc]
    rfl
  rw [hgoal]
  obtain ⟨hl1, hnt2⟩ := ntW_elim (ntW_of_head hws (show isWsChar qChar = false by decide)
    (kd.flatMap escChar ++ qChar :: (':' :: ' ' :: (dumpsVal v ++ rest))))
  obtain ⟨hl2, hsb2⟩ := psbW_elim (psbW_dumps kd (':' :: ' ' :: (dumpsVal v ++ rest)))
  obtain ⟨hl3, hnt4⟩ := ntW_elim (ntW_eq (skipWs_cons_of_not_ws
    (show isWsChar ':' = false by decide) (' ' :: (dumpsVal v ++ rest))))
  have hpv := hv [' '] rest
    (by intro c hc; simp only [List.mem_singleton] at hc; subst hc; decide) hrest hwf
  rw [show ([' '] ++ (dumpsVal v ++ rest)) = ' ' :: (dumpsVal v ++ rest) from rfl] at hpv
  obtain ⟨hl4, hpv2⟩ := pvW_elim hpv
  unfold pmW
  rw [parseMemberAt, hnt2]
  simp only []
  rw [if_pos trivial, hsb2]
  simp only []
  rw [hnt4]
  simp only []
  rw [if_pos trivial, hpv2]
  simp

theorem pilW_dumps_of : ∀ (xs : List Json), (∀ x ∈ xs, ValRT x) →
    ∀ (acc : List Json) (rest : List Char), wfbList xs = true →
    pilW acc (dumpsItems xs ++ ']' :: rest) = some (acc ++ xs, rest)
  | [], hall, acc, rest, hwf => by
    simp only [dumpsItems, List.nil_append]
    obtain ⟨hl1, hnt2⟩ := ntW_elim (ntW_eq (skipWs_cons_of_not_ws
      (show isWsChar ']' = false by decide) rest))
    unfold pilW
    rw [parseItemsLoop, hnt2]
    simp
  | x :: xs2, hall, acc, rest, hwf => by
    simp only [wfbList, Bool.and_eq_true] at hwf
    obtain ⟨hwx, hwxs⟩ := hwf
    have ih := pilW_dumps_of xs2 (fun y hy => hall y (by simp [hy])) (acc ++ [x]) rest hwxs
    simp only [dumpsItems, List.cons_append, List.append_assoc]
    obtain ⟨hl1, hnt2⟩ := ntW_elim (ntW_eq (skipWs_cons_of_not_ws
      (show isWsChar ',' = false by decide)
      (' ' :: (dumpsVal x ++ (dumpsItems xs2 ++ ']' :: rest)))))
    have hpv := hall x (by simp) [' '] (dumpsItems xs2 ++ ']' :: rest)
      (by intro c hc; simp only [List.mem_singleton] at hc; subst hc; decide)
      (nonDigitStart_items xs2 rest) hwx
    rw [show ([' '] ++ (dumpsVal x ++ (dumpsItems xs2 ++ ']' :: rest))) =
      ' ' :: (dumpsVal x ++ (dumpsItems xs2 ++ ']' :: rest)) from rfl] at hpv
    obtain ⟨hl2, hpv2⟩ := pvW_elim hpv
    obtain ⟨hl3, hil2⟩ := pilW_elim ih
    unfold pilW
    rw [parseItemsLoop, hnt2]
    simp only []
    rw [if_neg (by decide), if_pos trivial, hpv2]
    simp only []
    rw [hil2]
    simp

theorem pmlW_dumps_of : ∀ (kvs : List (String × Json)), (∀ p ∈ kvs, ValRT p.2) →
    ∀ (acc : List (String × Json)) (rest : List Char), wfbMembers kvs = true →
    (∀ p ∈ kvs, dictLookup acc p.1 = none) →
    pmlW acc (dumpsMembers kvs ++ rbChar :: rest) = some (acc ++ kvs, rest)
  | [], _, acc, rest, _, _ => by
    simp only [dumpsMembers, List.nil_append]
    obtain ⟨hl1, hnt2⟩ := ntW_elim (ntW_eq (skipWs_cons_of_not_ws
      (show isWsChar rbChar = false by decide) rest))
    unfold pmlW
    rw [parseMembersLoop, hnt2]
    simp
  | (k, v) :: kvs2, hall, acc, rest, hwf, hfresh => by
    simp only [wfbMembers, Bool.and_eq_true] at hwf
    obtain ⟨⟨hkn, hwv⟩, hwkvs⟩ := hwf
    have hkn2 : dictLookup kvs2 k = none := by
      cases h : dictLookup kvs2 k
      · rfl
      · rw [h] at hkn; cases hkn
    have hacc : dictInsert acc k v = acc ++ [(k, v)] :=
      dictInsert_append_fresh acc k v (hfresh (k, v) (by simp))
    have hfresh2 : ∀ p ∈ kvs2, dictLookup (acc ++ [(k, v)]) p.1 = none := by
      intro p hp
      refine dictLookup_append_fresh acc k v p.1 ?_ (hfresh p (by simp [hp]))
      intro hk
      rw [dictLookup_eq_none_iff] at hkn2
      exact hkn2 (by rw [hk]; exact List.mem_map_of_mem Prod.fst hp)
    have ihm := pmlW_dumps_of kvs2 (fun p hp => hall p (by simp [hp]))
      (acc ++ [(k, v)]) rest hwkvs hfresh2
    have hm := pmW_dumps_of k v (hall (k, v) (by simp)) [' ']
      (dumpsMembers kvs2 ++ rbChar :: rest)
      (by intro c hc; simp only [List.mem_singleton] at hc; subst hc; decide)
      (nonDigitStart_members kvs2 rest) hwv
    rw [show ([' '] ++ (strChars k ++ (':' :: ' ' :: (dumpsVal v ++
        (dumpsMembers kvs2 ++ rbChar :: rest))))) =
      ' ' :: (strChars k ++ (':' :: ' ' :: (dumpsVal v ++
        (dumpsMembers kvs2 ++ rbChar :: rest)))) from rfl] at hm
    obtain ⟨hl2, hm2⟩ := pmW_elim hm
    obtain ⟨hl3, hml2⟩ := pmlW_elim ihm
    simp only [dumpsMembers, List.cons_append, List.append_assoc]
    obtain ⟨hl1, hnt2⟩ := ntW_elim (ntW_eq (skipWs_cons_of_not_ws
      (show isWsChar ',' = false by decide)
      (' ' :: (strChars k ++ (':' :: ' ' :: (dumpsVal v ++
        (dumpsMembers kvs2 ++ rbChar :: rest)))))))
    unfold pmlW
    rw [parseMembersLoop, hnt2]
    simp only []
    rw [if_neg (by decide), if_pos trivial, hm2]
    simp only []
    rw [hacc, hml2]
    simp

/-! ## Value round-trip: containers -/


theorem pvW_dumps_arr_of (x : Json) (xs : List Json) (hall : ∀ y ∈ x :: xs, ValRT y)
    (ws rest : List Char) (hws : ∀ c ∈ ws, isWsChar c = true)
    (hwf : wfb (.arr (x :: xs)) = true) :
    pvW (ws ++ (dumpsVal (.arr (x :: xs)) ++ rest)) = some (.arr (x :: xs), rest) := by
  have hwl : wfbList (x :: xs) = true := hwf
  simp only [wfbList, Bool.and_eq_true] at hwl
  obtain ⟨hwx, hwxs⟩ := hwl
  simp only [dumpsVal, List.cons_append, List.append_assoc, List.nil_append]
  obtain ⟨hl1, hnt2⟩ := ntW_elim (ntW_of_head hws (show isWsChar '[' = false by decide)
    (dumpsVal x ++ (dumpsItems xs ++ ']' :: rest)))
  obtain ⟨c0, t0, hct0, hwc0, hc0r, hc0b⟩ := dumpsVal_head x
  have hpk : skipWs (dumpsVal x ++ (dumpsItems xs ++ ']' :: rest)) =
      c0 :: (t0 ++ (dumpsItems xs ++ ']' :: rest)) := by
    rw [hct0, List.cons_append]
    exact skipWs_cons_of_not_ws hwc0 _
  obtain ⟨hl2, hnt4⟩ := ntW_elim (ntW_eq hpk)
  have hpv := hall x (by simp) [] (dumpsItems xs ++ ']' :: rest)
    (by intro c hc; cases hc) (nonDigitStart_items xs rest) hwx
  rw [List.nil_append] at hpv
  obtain ⟨hl3, hpv2⟩ := pvW_elim hpv
  have hil := pilW_dumps_of xs (fun y hy => hall y (by simp [hy])) [x] rest hwxs
  obtain ⟨hl4, hil2⟩ := pilW_elim hil
  unfold pvW
  rw [parseValue, hnt2]
  simp only []
  rw [if_neg (by decide), if_neg (by decide), if_neg (by decide), if_neg (by decide),
    if_pos trivial, hnt4]
  simp only []
  rw [if_neg hc0r, hpv2]
  simp only []
  rw [hil2]
  simp

theorem pvW_dumps_obj_of (k : String) (v : Json) (kvs : List (String × Json))
    (hall : ∀ p ∈ (k, v) :: kvs, ValRT p.2)
    (ws rest : List Char) (hws : ∀ c ∈ ws, isWsChar c = true)
    (hwf : wfb (.obj ((k, v) :: kvs)) = true) :
    pvW (ws ++ (dumpsVal (.obj ((k, v) :: kvs)) ++ rest)) =
      some (.obj ((k, v) :: kvs), rest) := by
  have hwl : wfbMembers ((k, v) :: kvs) = true := hwf
  simp only [wfbMembers, Bool.and_eq_true] at hwl
  obtain ⟨⟨hkn, hwv⟩, hwkvs⟩ := hwl
  have hkn2 : dictLookup kvs k = none := by
    cases h : dictLookup kvs k
    · rfl
    · rw [h] at hkn; cases hkn
  simp only [dumpsVal, List.cons_append, List.append_assoc, List.nil_append]
  rw [show Char.ofNat 123 = lbChar from rfl, show Char.ofNat 125 = rbChar from rfl]
  obtain ⟨hl1, hnt2⟩ := ntW_elim (ntW_of_head hws (show isWsChar lbChar = false by decide)
    (strChars k ++ (':' :: ' ' :: (dumpsVal v ++ (dumpsMembers kvs ++ rbChar :: rest)))))
  have hqk : skipWs (strChars k ++ (':' :: ' ' :: (dumpsVal v ++
      (dumpsMembers kvs ++ rbChar :: rest)))) =
      qChar :: (k.data.flatMap escChar ++ [qChar] ++ (':' :: ' ' :: (dumpsVal v ++
        (dumpsMembers kvs ++ rbChar :: rest)))) := by
    rw [show strChars k = qChar :: (k.data.flatMap escChar ++ [qChar]) from rfl,
      List.cons_append]
    exact skipWs_cons_of_not_ws (by decide) _
  obtain ⟨hl2, hnt4⟩ := ntW_elim (ntW_eq hqk)
  have hm := pmW_dumps_of k v (hall (k, v) (by simp)) []
    (dumpsMembers kvs ++ rbChar :: rest) (by intro c hc; cases hc)
    (nonDigitStart_members kvs rest) hwv
  rw [List.nil_append] at hm
  obtain ⟨hl3, hm2⟩ := pmW_elim hm
  have hfresh2 : ∀ p ∈ kvs, dictLookup (dictInsert [] k v) p.1 = none := by
    intro p hp
    have hne : ¬ k = p.1 := by
      intro hk
      rw [dictLookup_eq_none_iff] at hkn2
      exact hkn2 (by rw [hk]; exact List.mem_map_of_mem Prod.fst hp)
    show dictLookup [(k, v)] p.1 = none
    simp [dictLookup, hne]
  have hml := pmlW_dumps_of kvs (fun p hp => hall p (by simp [hp]))
    (dictInsert [] k v) rest hwkvs hfresh2
  obtain ⟨hl4, hml2⟩ := pmlW_elim hml
  unfold pvW
  rw [parseValue, hnt2]
  simp only []
  rw [if_neg (by decide), if_neg (by decide), if_neg (by decide), if_neg (by decide),
    if_neg (by decide), if_pos trivial, hnt4]
  simp only []
  rw [if_neg (by decide), hm2]
  simp only []
  rw [hml2]
  simp [dictInsert]

/-! ## Value round-trip: assembled -/


theorem pvW_dumps_main : ∀ (N : Nat) (j : Json), sizeOf j ≤ N → ValRT j := by
  intro N
  induction N with
  | zero =>
    intro j hj
    exact absurd hj (by cases j <;> simp)
  | succ N ih =>
    intro j hj ws rest hws hrest hwf
    cases j with
    | null => exact pvW_dumps_null ws rest hws
    | bool b => exact pvW_dumps_bool b ws rest hws
    | num i => exact pvW_dumps_num i ws rest hws hrest
    | str s => exact pvW_dumps_str s ws rest hws
    | arr xs =>
      cases xs with
      | nil => exact pvW_dumps_arrnil ws rest hws
      | cons x xs2 =>
        refine pvW_dumps_arr_of x xs2 ?_ ws rest hws hwf
        intro y hy
        refine ih y ?_
        have h1 := List.sizeOf_lt_of_mem hy
        simp only [Json.arr.sizeOf_spec] at hj
        omega
    | obj kvs =>
      cases kvs with
      | nil => exact pvW_dumps_objnil ws rest hws
      | cons kv kvs2 =>
        obtain ⟨k, v⟩ := kv
        refine pvW_dumps_obj_of k v kvs2 ?_ ws rest hws hwf
        intro p hp
        refine ih p.2 ?_
        have h1 := List.sizeOf_lt_of_mem hp
        have h2 : sizeOf p.2 < sizeOf p := by
          obtain ⟨a, b⟩ := p
          simp
        simp only [Json.obj.sizeOf_spec] at hj
        omega

theorem pvW_dumps_all (j : Json) : ValRT j := pvW_dumps_main (sizeOf j) j (Nat.le_refl _)

theorem parseJson_dumps (j : Json) (hwf : wfb j = true) :
    parseJson (dumpsVal j) = some j := by
  have h := pvW_dumps_all j [] [] (by intro c hc; cases hc) rfl hwf
  rw [List.nil_append, List.append_nil] at h
  obtain ⟨hl, h2⟩ := pvW_elim h
  rw [parseJson, h2]
  rfl

/-! ## Parser output is well-formed -/


theorem wfbList_append (a : List Json) (j : Json) :
    wfbList (a ++ [j]) = (wfbList a && wfb j) := by
  induction a with
  | nil => simp [wfbList]
  | cons x t ih => simp [wfbList, ih, Bool.and_assoc]

theorem parse_wf_main : ∀ (N : Nat) (s : List Char), s.length ≤ N →
    (∀ j r, pvW s = some (j, r) → wfb j = true) ∧
    (∀ acc js r, wfbList acc = true → pilW acc s = some (js, r) → wfbList js = true) ∧
    (∀ kv r, pmW s = some (kv, r) → wfb kv.2 = true) ∧
    (∀ acc kvs r, wfbMembers acc = true → pmlW acc s = some (kvs, r) →
      wfbMembers kvs = true) := by
  intro N
  induction N with
  | zero =>
    intro s hs
    have hs0 : s = [] := List.eq_nil_of_length_eq_zero (by omega)
    subst hs0
    refine ⟨?_, ?_, ?_, ?_⟩
    · intro j r h
      unfold pvW at h
      rw [parseValue, show nextTok ([] : List Char) = none from rfl] at h
      simp at h
    · intro acc js r hacc h
      unfold pilW at h
      rw [parseItemsLoop, show nextTok ([] : List Char) = none from rfl] at h
      simp at h
    · intro kv r h
      unfold pmW at h
      rw [parseMemberAt, show nextTok ([] : List Char) = none from rfl] at h
      simp at h
    · intro acc kvs r hacc h
      unfold pmlW at h
      rw [parseMembersLoop, show nextTok ([] : List Char) = none from rfl] at h
      simp at h
  | succ N ih =>
    intro s hs
    refine ⟨?_, ?_, ?_, ?_⟩
    · intro j r h
      obtain ⟨hlt, hp⟩ := pvW_elim h
      rw [parseValue] at hp
      cases hnt : nextTok s with
      | none => rw [hnt] at hp; simp at hp
      | some ct =>
        obtain ⟨c, rr, hrl⟩ := ct
        rw [hnt] at hp
        simp only [] at hp
        split at hp
        · split at hp
          · injection hp with hp1
            injection hp1 with hpj hpr
            subst hpj
            rfl
          · cases hp
        · split at hp
          · split at hp
            · injection hp with hp1
              injection hp1 with hpj hpr
              subst hpj
              rfl
            · cases hp
          · split at hp
            · split at hp
              · injection hp with hp1
                injection hp1 with hpj hpr
                subst hpj
                rfl
              · cases hp
            · split at hp
              · -- string branch
                split at hp
                · next cs r2 h2 heq =>
                  injection hp with hp1
                  injection hp1 with hpj hpr
                  subst hpj
                  rfl
                · cases hp
              · split at hp
                · -- array branch
                  split at hp
                  · cases hp
                  · next d r2 h2 heq =>
                    split at hp
                    · injection hp with hp1
                      injection hp1 with hpj hpr
                      subst hpj
                      rfl
                    · split at hp
                      · next j1 r3 h3 heq1 =>
                        split at hp
                        · next js r4 h4 heq2 =>
                          injection hp with hp1
                          injection hp1 with hpj hpr
                          subst hpj
                          have hw1 : wfb j1 = true := by
                            refine (ih rr (by omega)).1 j1 r3 ?_
                            unfold pvW
                            rw [heq1]
                            rfl
                          have hw2 : wfbList js = true := by
                            refine (ih r3 (by omega)).2.1 [j1] js r4 ?_ ?_
                            · simp [wfbList, hw1]
                            · unfold pilW
                              rw [heq2]
                              rfl
                          exact hw2
                        · cases hp
                      · cases hp
                · split at hp
                  · -- object branch
                    split at hp
                    · cases hp
                    · next d r2 h2 heq =>
                      split at hp
                      · injection hp with hp1
                        injection hp1 with hpj hpr
                        subst hpj
                        rfl
                      · split at hp
                        · next k1 v1 r3 h3 heq1 =>
                          split at hp
                          · next kvs r4 h4 heq2 =>
                            injection hp with hp1
                            injection hp1 with hpj hpr
                            subst hpj
                            have hw1 : wfb v1 = true := by
                              have := (ih rr (by omega)).2.2.1 (k1, v1) r3 ?_
                              · exact this
                              · unfold pmW
                                rw [heq1]
                                rfl
                            have hw2 : wfbMembers kvs = true := by
                              refine (ih r3 (by omega)).2.2.2 (dictInsert [] k1 v1) kvs r4 ?_ ?_
                              · simp [dictInsert, wfbMembers, dictLookup, hw1]
                              · unfold pmlW
                                rw [heq2]
                                rfl
                            exact hw2
                          · cases hp
                        · cases hp
                  · split at hp
                    · -- negative number
                      split at hp
                      · injection hp with hp1
                        injection hp1 with hpj hpr
                        subst hpj
                        rfl
                      · cases hp
                    · split at hp
                      · -- nonnegative number
                        split at hp
                        · injection hp with hp1
                          injection hp1 with hpj hpr
                          subst hpj
                          rfl
                        · cases hp
                      · cases hp
    · intro acc js r hacc h
      obtain ⟨hlt, hp⟩ := pilW_elim h
      rw [parseItemsLoop] at hp
      cases hnt : nextTok s with
      | none => rw [hnt] at hp; simp at hp
      | some ct =>
        obtain ⟨c, rr, hrl⟩ := ct
        rw [hnt] at hp
        simp only [] at hp
        split at hp
        · injection hp with hp1
          injection hp1 with hpj hpr
          subst hpj
          exact hacc
        · split at hp
          · split at hp
            · next j1 r2 h2 heq1 =>
              split at hp
              · next js2 r3 h3 heq2 =>
                injection hp with hp1
                injection hp1 with hpj hpr
                subst hpj
                have hw1 : wfb j1 = true := by
                  refine (ih rr (by omega)).1 j1 r2 ?_
                  unfold pvW
                  rw [heq1]
                  rfl
                refine (ih r2 (by omega)).2.1 (acc ++ [j1]) js2 r3 ?_ ?_
                · rw [wfbList_append, hacc, hw1]
                  rfl
                · unfold pilW
                  rw [heq2]
                  rfl
              · cases hp
            · cases hp
          · cases hp
    · intro kv r h
      obtain ⟨hlt, hp⟩ := pmW_elim h
      rw [parseMemberAt] at hp
      cases hnt : nextTok s with
      | none => rw [hnt] at hp; simp at hp
      | some ct =>
        obtain ⟨c, rr, hrl⟩ := ct
        rw [hnt] at hp
        simp only [] at hp
        split at hp
        · split at hp
          · next cs r2 h2 heq1 =>
            split at hp
            · simp at hp
            · next d r3 h3 heq2 =>
              split at hp
              · split at hp
                · next v r4 h4 heq3 =>
                  injection hp with hp1
                  injection hp1 with hpkv hpr
                  subst hpkv
                  show wfb v = true
                  refine (ih r3 (by omega)).1 v r4 ?_
                  unfold pvW
                  rw [heq3]
                  rfl
                · cases hp
              · cases hp
          · cases hp
        · cases hp
    · intro acc kvs r hacc h
      obtain ⟨hlt, hp⟩ := pmlW_elim h
      rw [parseMembersLoop] at hp
      cases hnt : nextTok s with
      | none => rw [hnt] at hp; simp at hp
      | some ct =>
        obtain ⟨c, rr, hrl⟩ := ct
        rw [hnt] at hp
        simp only [] at hp
        split at hp
        · injection hp with hp1
          injection hp1 with hpj hpr
          subst hpj
          exact hacc
        · split at hp
          · split at hp
            · next k1 v1 r2 h2 heq1 =>
              split at hp
              · next kvs2 r3 h3 heq2 =>
                injection hp with hp1
                injection hp1 with hpj hpr
                subst hpj
                have hw1 : wfb v1 = true := by
                  have := (ih rr (by omega)).2.2.1 (k1, v1) r2 ?_
                  · exact this
                  · unfold pmW
                    rw [heq1]
                    rfl
                refine (ih r2 (by omega)).2.2.2 (dictInsert acc k1 v1) kvs2 r3 ?_ ?_
                · exact wfbMembers_dictInsert acc k1 v1 hacc hw1
                · unfold pmlW
                  rw [heq2]
                  rfl
              · cases hp
            · cases hp
          · cases hp


theorem parseJson_wf (s : List Char) (j : Json) (h : parseJson s = some j) : wfb j = true := by
  rw [parseJson] at h
  cases hp : parseValue s with
  | none => rw [hp] at h; cases h
  | some p =>
    obtain ⟨j2, r2, hl⟩ := p
    rw [hp] at h
    simp only [] at h
    split at h
    · injection h with hj
      subst hj
      refine (parse_wf_main s.length s (Nat.le_refl _)).1 j2 r2 ?_
      unfold pvW
      rw [hp]
      rfl
    · cases h

theorem smMarker_split :
    smMarker.data = "//# sourceMappingURL=data:application/json;base64".data ++ [','] := by
  decide

/-! ## C5: the source-map rewrite round-trip -/


/-- C5: for every code string whose embedded inline base64 source map decodes
to a JSON object with a string-list `sources` field, rewriting with
`_rewrite_source_map_sources` succeeds and decoding the re-embedded map
yields the same object with every `sources[i]` replaced by
`component://{component_name}/{basename(sources[i])}`, every other field —
`mappings`, `sourcesContent`, `names`, `version` — preserved. -/
theorem rewrite_roundtrip (code componentName : String) (cp : List Char)
    (kvs : List (String × Json)) (xs : List Json) (srcs : List String)
    (hx : extractSourceMap code = some (cp, .obj kvs))
    (hs : dictLookup kvs "sources" = some (.arr xs))
    (ha : asStrList xs = .ok srcs) :
    ∃ out : String,
      rewriteSourceMapSources code componentName = .ok out ∧
      extractSourceMap out = some (cp, .obj (dictInsert kvs "sources"
        (.arr (srcs.map fun s => Json.str (componentUrl componentName s))))) ∧
      (∀ k2, ¬ k2 = "sources" →
        dictLookup (dictInsert kvs "sources"
          (.arr (srcs.map fun s => Json.str (componentUrl componentName s)))) k2 =
        dictLookup kvs k2) := by
  unfold extractSourceMap at hx
  cases hr : rsplitGo smMarker.data code.data with
  | none => rw [hr] at hx; cases hx
  | some p =>
    obtain ⟨cp0, b64⟩ := p
    rw [hr] at hx
    simp only [] at hx
    cases hd : (b64decode b64).bind utf8Decode with
    | none => rw [hd] at hx; cases hx
    | some chars =>
      rw [hd] at hx
      simp only [] at hx
      cases hj : parseJson chars with
      | none => rw [hj] at hx; cases hx
      | some m =>
        rw [hj] at hx
        simp only [Option.map_some', Option.some.injEq, Prod.mk.injEq] at hx
        obtain ⟨hcp, hm⟩ := hx
        subst hcp
        subst hm
        have hwfm : wfbMembers kvs = true := parseJson_wf chars (.obj kvs) hj
        set arr2 : Json := .arr (srcs.map fun s => Json.str (componentUrl componentName s))
          with harr2
        set kvs2 : List (String × Json) := dictInsert kvs "sources" arr2 with hkvs2
        have hwf2 : wfb (Json.obj kvs2) = true := by
          show wfbMembers kvs2 = true
          rw [hkvs2]
          refine wfbMembers_dictInsert kvs "sources" arr2 hwfm ?_
          rw [harr2]
          show wfbList (srcs.map fun s => Json.str (componentUrl componentName s)) = true
          exact wfbList_map_str srcs (componentUrl componentName)
        have hcomma : ',' ∉ b64encode (utf8Encode (dumpsVal (Json.obj kvs2))) :=
          comma_not_mem_b64encode _ (utf8Encode_lt_256 _)
        have hmk := rsplitGo_marker smMarker.data
          "//# sourceMappingURL=data:application/json;base64".data ',' _ smMarker_split hcomma
        have hpre := rsplitGo_prepend smMarker.data cp0
          (smMarker.data ++ b64encode (utf8Encode (dumpsVal (Json.obj kvs2)))) []
          (b64encode (utf8Encode (dumpsVal (Json.obj kvs2)))) hmk
        rw [List.append_nil] at hpre
        have hdec : (b64decode (b64encode (utf8Encode (dumpsVal (Json.obj kvs2))))).bind
            utf8Decode = some (dumpsVal (Json.obj kvs2)) := by
          rw [b64decode_b64encode _ (utf8Encode_lt_256 _)]
          exact utf8Decode_utf8Encode _
        refine ⟨String.mk (cp0 ++ smMarker.data ++
          b64encode (utf8Encode (dumpsVal (Json.obj kvs2)))), ?_, ?_, ?_⟩
        · simp only [rewriteSourceMapSources, hr, hd, hj, rewriteSources, hs, ha,
            Except.map, harr2, hkvs2]
        · unfold extractSourceMap
          rw [show (String.mk (cp0 ++ smMarker.data ++
              b64encode (utf8Encode (dumpsVal (Json.obj kvs2))))).data =
            cp0 ++ (smMarker.data ++ b64encode (utf8Encode (dumpsVal (Json.obj kvs2))))
            from by simp [List.append_assoc]]
          rw [hpre]
          simp only []
          rw [hdec]
          simp only []
          rw [parseJson_dumps (Json.obj kvs2) hwf2]
          rfl
        · intro k2 hk2
          rw [hkvs2, dictLookup_dictInsert]
          rw [if_neg (fun h => hk2 h.symm)]


/-- The concrete source map used to witness the round-trip claim. -/
def m5 : Json := .obj [("version", .num 3), ("sources", .arr [.str "src/app.tsx"]),
  ("mappings", .str "AAAA")]

/-- Code ahead of the witness map's marker. -/
def cp5 : List Char := "console.log(1);\n".data

/-- The witness code string: code, marker, base64 payload of `m5`. -/
def code5 : String :=
  String.mk (cp5 ++ smMarker.data ++ b64encode (utf8Encode (dumpsVal m5)))

theorem code5_extract : extractSourceMap code5 = some (cp5, m5) := by
  have hcomma : ',' ∉ b64encode (utf8Encode (dumpsVal m5)) :=
    comma_not_mem_b64encode _ (utf8Encode_lt_256 _)
  have hmk := rsplitGo_marker smMarker.data
    "//# sourceMappingURL=data:application/json;base64".data ',' _ smMarker_split hcomma
  have hpre := rsplitGo_prepend smMarker.data cp5
    (smMarker.data ++ b64encode (utf8Encode (dumpsVal m5))) []
    (b64encode (utf8Encode (dumpsVal m5))) hmk
  rw [List.append_nil] at hpre
  have hwf : wfb m5 = true := by
    show wfbMembers [("version", .num 3), ("sources", .arr [.str "src/app.tsx"]),
      ("mappings", .str "AAAA")] = true
    simp only [wfbMembers, wfb, wfbList, dictLookup,
      if_neg (show ¬ "sources" = "version" by decide),
      if_neg (show ¬ "mappings" = "version" by decide),
      if_neg (show ¬ "mappings" = "sources" by decide)]
    rfl
  unfold extractSourceMap
  rw [show code5.data = cp5 ++ (smMarker.data ++ b64encode (utf8Encode (dumpsVal m5)))
    from by simp [code5, List.append_assoc]]
  rw [hpre]
  simp only []
  rw [show (b64decode (b64encode (utf8Encode (dumpsVal m5)))).bind utf8Decode =
    some (dumpsVal m5) from by
      rw [b64decode_b64encode _ (utf8Encode_lt_256 _)]
      exact utf8Decode_utf8Encode _]
  simp only []
  rw [parseJson_dumps m5 hwf]
  rfl

theorem rewrite_roundtrip_witness :
    ∃ out : String,
      rewriteSourceMapSources code5 "comp" = .ok out ∧
      extractSourceMap out = some (cp5, Json.obj (dictInsert
        [("version", Json.num 3), ("sources", Json.arr [Json.str "src/app.tsx"]),
          ("mappings", Json.str "AAAA")] "sources"
        (Json.arr (["src/app.tsx"].map fun s => Json.str (componentUrl "comp" s))))) ∧
      (∀ k2, ¬ k2 = "sources" →
        dictLookup (dictInsert
          [("version", Json.num 3), ("sources", Json.arr [Json.str "src/app.tsx"]),
            ("mappings", Json.str "AAAA")] "sources"
          (Json.arr (["src/app.tsx"].map fun s => Json.str (componentUrl "comp" s)))) k2 =
        dictLookup [("version", Json.num 3), ("sources", Json.arr [Json.str "src/app.tsx"]),
          ("mappings", Json.str "AAAA")] k2) :=
  rewrite_roundtrip code5 "comp" cp5
    [("version", Json.num 3), ("sources", Json.arr [Json.str "src/app.tsx"]), ("mappings", Json.str "AAAA")]
    [Json.str "src/app.tsx"] ["src/app.tsx"] code5_extract rfl rfl
